import Mathlib

/-!
Verification of the graph-matching engine of `vermouth/graph_utils.py`
(vermouth-martinize).

The Python module is shallowly embedded below.  Nodes carry attribute
dictionaries (`AttrMap`), graphs are node lists plus undirected edge lists,
and every operation of the source file is translated as an executable Lean
definition with the source's name.  External library calls (`networkx`
clique enumeration and the VF2 `GraphMatcher`) are embedded through their
documented semantics, and `vermouth.utils.maxes`, whose source file is not
part of this tree, is modelled from the specification.
-/

/-- A Python attribute value as used by the matching engine: strings
(`atomname`, `element`, ...), numbers (edge weights), `None`, and the pairs
of values stored on product-graph nodes and edges. -/
inductive Val where
  | vnone : Val
  | vstr : String → Val
  | vrat : Rat → Val
  | vpair : Val → Val → Val
deriving DecidableEq

/-- A node or edge attribute dictionary: association list keyed by
attribute name. -/
abbrev AttrMap := List (String × Val)

/-- Association-list lookup (`d[k]` / `d.get(k)` of a Python dict whose
keys are unique). -/
def plookup {α β : Type} [DecidableEq α] : α → List (α × β) → Option β
  | _, [] => none
  | k, (k', v) :: m => if k' = k then some v else plookup k m

/-- An undirected labeled graph: nodes with attribute dictionaries and
edges with attribute dictionaries, as in `networkx.Graph`. -/
structure Graph (α : Type) where
  nodes : List (α × AttrMap)
  edges : List (α × α × AttrMap)
deriving DecidableEq

namespace Graph

variable {α β : Type} [DecidableEq α] [DecidableEq β]

/-- Iteration order over a graph's nodes (`for n in graph`). -/
def nodeIds (g : Graph α) : List α := g.nodes.map Prod.fst

/-- The attribute dictionary of a node (`graph.nodes[n]`). -/
def nodeAttrs (g : Graph α) (v : α) : AttrMap :=
  ((g.nodes.find? (fun p => p.1 = v)).map Prod.snd).getD []

/-- `graph.nodes[n].get(k)`: `none` when the attribute is absent. -/
def nodeAttr (g : Graph α) (v : α) (k : String) : Option Val :=
  plookup k (g.nodeAttrs v)

/-- `graph.has_edge(a, b)`: either orientation of the undirected edge. -/
def hasEdge (g : Graph α) (a b : α) : Bool :=
  g.edges.any (fun e => (e.1 = a ∧ e.2.1 = b) ∨ (e.1 = b ∧ e.2.1 = a))

/-- The attribute dictionary of an edge (`graph.edges[a, b]`). -/
def edgeAttrsOf (g : Graph α) (a b : α) : AttrMap :=
  ((g.edges.find? (fun e => (e.1 = a ∧ e.2.1 = b) ∨ (e.1 = b ∧ e.2.1 = a))).map
    (fun e => e.2.2)).getD []

/-- `graph.neighbors(v)` in adjacency (edge-insertion) order. -/
def neighbors (g : Graph α) (v : α) : List α :=
  g.edges.filterMap (fun e =>
    if e.1 = v then some e.2.1 else if e.2.1 = v then some e.1 else none)

/-- `graph.degree(v)`: incident edge ends (a self-loop counts twice). -/
def degree (g : Graph α) (v : α) : Nat :=
  (g.edges.map (fun e =>
    (if e.1 = v then 1 else 0) + (if e.2.1 = v then 1 else 0))).sum

end Graph

open Graph

variable {α β : Type}

/-- All ordered pairs of list elements with the first strictly before the
second: `itertools.combinations(l, 2)`. -/
def pairsOf : List α → List (α × α)
  | [] => []
  | x :: xs => xs.map (fun y => (x, y)) ++ pairsOf xs

/-- `all(attr in node1 and attr in node2 and node1[attr] == node2[attr]
for attr in attributes)`. -/
def attrsMatch (n1 n2 : AttrMap) (attributes : List String) : Bool :=
  attributes.all (fun a =>
    match plookup a n1, plookup a n2 with
    | some v1, some v2 => v1 = v2
    | _, _ => false)

/-- `{attr: (m1.get(attr, None), m2.get(attr, None)) for attr in
set(m1) | set(m2)}`: the paired attribute dictionary stored on product
nodes and product edges. -/
def pairAttrs (m1 m2 : AttrMap) : AttrMap :=
  ((m1.map Prod.fst ++ m2.map Prod.fst).dedup).map (fun k =>
    (k, Val.vpair ((plookup k m1).getD .vnone) ((plookup k m2).getD .vnone)))

variable [DecidableEq α] [DecidableEq β]

/-- The condition under which the modular-product builders connect two
product nodes: distinct components on both sides and the adjacency XNOR
(`graph1.has_edge(a1, a2)` iff `graph2.has_edge(b1, b2)`). -/
def productEdgeCond (g1 : Graph α) (g2 : Graph β) (p q : α × β) : Bool :=
  p.1 ≠ q.1 ∧ p.2 ≠ q.2 ∧ (g1.hasEdge p.1 q.1 = g2.hasEdge p.2 q.2)

/-- The edge list shared by all three product-graph builders of the
source: one edge per `itertools.combinations` pair satisfying
`productEdgeCond`; the paired edge attributes are stored only when
`withAttrs` is set (the categorical modular product) and both source
edges exist. -/
def xnorEdges (g1 : Graph α) (g2 : Graph β) (ns : List (α × β))
    (withAttrs : Bool) : List ((α × β) × (α × β) × AttrMap) :=
  (pairsOf ns).filterMap (fun pq =>
    if productEdgeCond g1 g2 pq.1 pq.2 then
      some (pq.1, pq.2,
        if withAttrs ∧ g1.hasEdge pq.1.1 pq.2.1 ∧ g2.hasEdge pq.1.2 pq.2.2 then
          pairAttrs (g1.edgeAttrsOf pq.1.1 pq.2.1) (g2.edgeAttrsOf pq.1.2 pq.2.2)
        else [])
    else none)

/-- `categorical_cartesian_product(graph1, graph2, attributes)`: all
attribute-compatible node pairs with paired node attributes, no edges. -/
def categorical_cartesian_product (g1 : Graph α) (g2 : Graph β)
    (attributes : List String) : Graph (α × β) :=
  { nodes := (((nodeIds g1).product (nodeIds g2)).filter (fun p =>
      attrsMatch (g1.nodeAttrs p.1) (g2.nodeAttrs p.2) attributes)).map
      (fun p => (p, pairAttrs (g1.nodeAttrs p.1) (g2.nodeAttrs p.2))),
    edges := [] }

/-- `categorical_modular_product(graph1, graph2, attributes)`. -/
def categorical_modular_product (g1 : Graph α) (g2 : Graph β)
    (attributes : List String) : Graph (α × β) :=
  let cart := categorical_cartesian_product g1 g2 attributes
  { nodes := cart.nodes,
    edges := xnorEdges g1 g2 (nodeIds cart) true }

/-- A subset of a graph's nodes that is pairwise adjacent. -/
def cliqueB (g : Graph α) (s : List α) : Bool :=
  s.all (· ∈ nodeIds g) && (pairsOf s).all (fun pq => g.hasEdge pq.1 pq.2)

/-- A nonempty clique no node of the graph can extend. -/
def isMaxCliqueB (g : Graph α) (s : List α) : Bool :=
  cliqueB g s && !s.isEmpty &&
    (nodeIds g).all (fun v => v ∈ s || !(s.all (fun u => g.hasEdge v u)))

/-- `networkx.find_cliques(graph)`, embedded by its documented semantics:
the maximal cliques of the graph, each exactly once (none for a graph
without nodes). -/
def find_cliques (g : Graph α) : List (List α) :=
  (nodeIds g).sublists.filter (isMaxCliqueB g)

/-- Modelled from the spec: `maxes` of `vermouth.utils` (the module is not
part of this source tree).  "Retain only the cliques of maximum
cardinality (ties all retained)"; the result is empty exactly when the
input is empty. -/
def maxes {γ : Type} (key : γ → Nat) (l : List γ) : List γ :=
  l.filter (fun x => l.all (fun y => key y ≤ key x))

/-- One `d[k] = v` update of a Python dict kept as an association list:
existing keys keep their position, new keys are appended. -/
def dictUpdate [DecidableEq α] (d : List (α × β)) (k : α) (v : β) :
    List (α × β) :=
  if d.any (fun p => p.1 = k) then
    d.map (fun p => if p.1 = k then (k, v) else p)
  else d ++ [(k, v)]

/-- `dict(pairs)`: left-to-right insertion, later duplicates override. -/
def dictOf [DecidableEq α] (l : List (α × β)) : List (α × β) :=
  l.foldl (fun d p => dictUpdate d p.1 p.2) []

/-- `categorical_maximum_common_subgraph(graph1, graph2, attributes)`. -/
def categorical_maximum_common_subgraph (g1 : Graph α) (g2 : Graph β)
    (attributes : List String) : List (List (α × β)) :=
  let product := categorical_modular_product g1 g2 attributes
  let cliques := find_cliques product
  let largest := maxes List.length cliques
  largest.map dictOf

/-- The first-phase ("heavy") reduced product graph built inline by
`maximum_common_subgraph`: attribute-compatible node pairs in which both
nodes have degree different from 1, connected by the adjacency-XNOR rule
without attribute storage. -/
def mcsHeavyProduct (g1 : Graph α) (g2 : Graph β)
    (attributes : List String) : Graph (α × β) :=
  let ns := ((nodeIds g1).product (nodeIds g2)).filter (fun p =>
    attrsMatch (g1.nodeAttrs p.1) (g2.nodeAttrs p.2) attributes &&
      g1.degree p.1 ≠ 1 && g2.degree p.2 ≠ 1)
  { nodes := ns.map (fun p => (p, [])),
    edges := xnorEdges g1 g2 ns false }

/-- The node-admission test of the second-phase product graph of
`maximum_common_subgraph`: one node of the pair has degree at most 1, the
pair is attribute-compatible, and the `graph1`-neighbour images under the
seed mapping are empty, partly unmapped, or meet the `graph2`
neighbours (`not g1_neighbors or None in g1_neighbors or any(n in
g1_neighbors for n in graph2.neighbors(g2_node))`). -/
def mcsLeafCond (g1 : Graph α) (g2 : Graph β) (attributes : List String)
    (clique : List (α × β)) (p : α × β) : Bool :=
  (g1.degree p.1 ≤ 1 || g2.degree p.2 ≤ 1) &&
    attrsMatch (g1.nodeAttrs p.1) (g2.nodeAttrs p.2) attributes &&
    (let g1nbrs := (g1.neighbors p.1).map (fun n => plookup n (dictOf clique))
     g1nbrs.isEmpty || none ∈ g1nbrs ||
       (g2.neighbors p.2).any (fun n => some n ∈ g1nbrs)) &&
    !(p ∈ clique)

/-- The second-phase product graph built inline by
`maximum_common_subgraph` for one candidate heavy clique: the clique's
nodes plus every admissible leaf pair, connected by the adjacency-XNOR
rule. -/
def mcsLeafProduct (g1 : Graph α) (g2 : Graph β) (attributes : List String)
    (clique : List (α × β)) : Graph (α × β) :=
  let ns := clique ++ ((nodeIds g1).product (nodeIds g2)).filter
    (mcsLeafCond g1 g2 attributes clique)
  { nodes := ns.map (fun p => (p, [])),
    edges := xnorEdges g1 g2 ns false }

/-- Whether two lists hold the same elements (`frozenset(a) ==
frozenset(b)`). -/
def setEqB {γ : Type} [DecidableEq γ] (a b : List γ) : Bool :=
  a.all (fun x => x ∈ b) && b.all (fun x => x ∈ a)

/-- De-duplication up to element sets, keeping the first representative of
each set: `set(frozenset(m) for m in l)`. -/
def dedupSets {γ : Type} [DecidableEq γ] (l : List (List γ)) :
    List (List γ) :=
  l.foldl (fun acc c => if acc.any (fun c2 => setEqB c2 c) then acc
    else acc ++ [c]) []

/-- `maximum_common_subgraph(graph1, graph2, attributes)`: all maximal
heavy cliques plus the synthetic empty clique, each extended through its
own second-phase product graph; the overall largest cliques are
de-duplicated as sets (`set(frozenset(m) for m in largest)`) and turned
into dicts. -/
def maximum_common_subgraph (g1 : Graph α) (g2 : Graph β)
    (attributes : List String) : List (List (α × β)) :=
  let red := mcsHeavyProduct g1 g2 attributes
  let collected := ([[]] ++ find_cliques red).flatMap (fun c =>
    find_cliques (mcsLeafProduct g1 g2 attributes c))
  let largest := maxes List.length collected
  (dedupSets largest).map dictOf

/-- All assignment lists pairing each node of `resNodes`, in order, with
some node of `refNodes`: the raw search space of the VF2 matcher before
the injectivity, adjacency and semantic checks. -/
def allAssignments (refNodes : List α) : List β → List (List (α × β))
  | [] => [[]]
  | r :: rs => refNodes.flatMap (fun c =>
      (allAssignments refNodes rs).map (fun m => (c, r) :: m))

/-- The acceptance predicate of `ElementGraphMatcher` /
`subgraph_isomorphisms_iter`: an injective mapping (reference node,
residue node) that is an induced-subgraph isomorphism and equates the
`element` attribute of every mapped pair. -/
def isValidIso (reference residue : Graph α) (m : List (α × α)) : Bool :=
  (m.map Prod.fst).Nodup && (m.map Prod.snd).Nodup &&
    (pairsOf m).all (fun pq =>
      reference.hasEdge pq.1.1 pq.2.1 = residue.hasEdge pq.1.2 pq.2.2) &&
    m.all (fun p =>
      reference.nodeAttr p.1 "element" = residue.nodeAttr p.2 "element")

/-- `ElementGraphMatcher(reference, residue).subgraph_isomorphisms_iter()`,
embedded by its documented semantics: every total assignment of the
residue nodes to distinct reference nodes that passes `isValidIso`, in a
fixed discovery order. -/
def subIsoList (reference residue : Graph α) : List (List (α × α)) :=
  (allAssignments (nodeIds reference) (nodeIds residue)).filter
    (isValidIso reference residue)

/-- The seeded re-search (`GM_large` with `core_1`/`core_2` pre-set):
every completion of the seed to a total assignment of the residue nodes
that passes `isValidIso`, in discovery order. -/
def completionsFrom (reference residue : Graph α) (seed : List (α × α)) :
    List (List (α × α)) :=
  let remaining := (nodeIds residue).filter (fun r => !(r ∈ seed.map Prod.snd))
  ((allAssignments (nodeIds reference) remaining).map (fun m => seed ++ m)).filter
    (isValidIso reference residue)

/-- One iteration of the hydrogen-extension loop of `isomorphism` for the
residue leaf node `resH`, acting on the pair (match, reverse match). -/
def extendLeafStep (reference residue : Graph α)
    (st : List (α × α) × List (α × α)) (resH : α) :
    List (α × α) × List (α × α) :=
  match (residue.neighbors resH).head? with
  | none => st
  | some resNbr =>
    match plookup resNbr st.2 with
    | none => st
    | some refNbr =>
      let cands := (reference.neighbors refNbr).filter (fun i =>
        reference.degree i = 1 &&
          reference.nodeAttr i "atomname" = residue.nodeAttr resH "atomname")
      match cands with
      | [refH] =>
        if !(refH ∈ st.1.map Prod.fst) &&
            reference.nodeAttr refH "element" = residue.nodeAttr resH "element" then
          (st.1 ++ [(refH, resH)], st.2 ++ [(resH, refH)])
        else st
      | _ => st

/-- The full hydrogen-extension loop over the residue's degree-1 nodes,
started from a heavy-atom match and its reverse. -/
def extendLeaves (reference residue : Graph α) (hIdxs : List α)
    (hm : List (α × α)) : List (α × α) × List (α × α) :=
  hIdxs.foldl (extendLeafStep reference residue) (hm, hm.map (fun p => (p.2, p.1)))

/-- The residue's leaf nodes: `[idx for idx in residue if
residue.degree(idx) == 1]`. -/
def leafIdxs (residue : Graph α) : List α :=
  (nodeIds residue).filter (fun i => residue.degree i = 1)

/-- `nx.Graph(residue).copy()` with `H_idxs` removed: the induced
heavy-atom subgraph of the residue. -/
def heavyGraph (residue : Graph α) : Graph α :=
  { nodes := residue.nodes.filter (fun p => !(p.1 ∈ leafIdxs residue)),
    edges := residue.edges.filter (fun e =>
      !(e.1 ∈ leafIdxs residue) && !(e.2.1 ∈ leafIdxs residue)) }

/-- What one heavy-atom embedding contributes to the result list of
`isomorphism`: the leaf-extended seed's completions, cut to the first
discovered one when the seed is non-empty (`itertools.islice(outcome, 1)`)
and taken whole when it is empty. -/
def isoContribution (reference residue : Graph α) (hm : List (α × α)) :
    List (List (α × α)) :=
  let em := (extendLeaves reference residue (leafIdxs residue) hm).1
  let outcome := completionsFrom reference residue em
  if em.isEmpty then outcome else outcome.take 1

/-- `rate_match(residue, bead, match)`: the number of mapped pairs whose
`atomname` attributes (read with `.get`, so `None` when absent) agree. -/
def rate_match (residue bead : Graph α) (m : List (α × α)) : Nat :=
  (m.map (fun p =>
    if residue.nodeAttr p.1 "atomname" = bead.nodeAttr p.2 "atomname"
    then 1 else 0)).sum

/-- Stable insertion into a list sorted descending by `key`. -/
def insertDesc {γ : Type} (key : γ → Nat) (x : γ) : List γ → List γ
  | [] => [x]
  | y :: ys => if key y ≤ key x then x :: y :: ys else y :: insertDesc key x ys

/-- `sorted(l, key=key, reverse=True)`: stable descending sort. -/
def sortDesc {γ : Type} (key : γ → Nat) (l : List γ) : List γ :=
  l.foldr (insertDesc key) []

/-- `isomorphism(reference, residue)`: heavy-atom subgraph isomorphisms,
each extended over the leaves and completed, sorted best-first by
`rate_match`. -/
def isomorphism (reference residue : Graph α) : List (List (α × α)) :=
  let first_matches := subIsoList reference (heavyGraph residue)
  let found := first_matches.flatMap (isoContribution reference residue)
  sortDesc (rate_match reference residue) found

/-- A quotient-graph node of `blockmodel`: the induced subgraph of its
partition together with the summary statistics the source stores as node
attributes, plus the positionally assigned caller attributes. -/
structure BlockNode where
  graph : Graph Nat
  nnodes : Nat
  nedges : Nat
  density : Rat
  extra : List (String × Option Val)
deriving DecidableEq

/-- The quotient graph returned by `blockmodel`: one node per partition
and merged weighted edges between blocks. -/
structure BlockGraph where
  nodes : List (Nat × BlockNode)
  edges : List ((Nat × Nat) × Rat)
deriving DecidableEq

/-- `G.subgraph(idxs)`: the induced subgraph on the listed nodes. -/
def subgraphOn (g : Graph Nat) (idxs : List Nat) : Graph Nat :=
  { nodes := g.nodes.filter (fun p => p.1 ∈ idxs),
    edges := g.edges.filter (fun e => e.1 ∈ idxs && e.2.1 ∈ idxs) }

/-- `networkx.density`: `2 m / (n (n - 1))`, zero for at most one node. -/
def densityOf (g : Graph Nat) : Rat :=
  let n := g.nodes.length
  if n ≤ 1 then 0 else (2 * g.edges.length : Rat) / ((n : Rat) * ((n : Rat) - 1))

/-- `d.get('weight', 1.0)` of an edge attribute dictionary; the engine
only ever stores numeric weights. -/
def edgeWeight (attrs : AttrMap) : Rat :=
  match plookup "weight" attrs with
  | some (Val.vrat q) => q
  | some _ => 0
  | none => 1

/-- The `block_mapping` of `blockmodel`: each covered source node is sent
to the last partition whose induced subgraph contains it (dict updates in
partition order, later partitions override). -/
def blockOf (g : Graph Nat) (partitions : List (List Nat)) (n : Nat) :
    Option Nat :=
  ((partitions.enum.filter (fun bi =>
    n ∈ bi.2 && n ∈ nodeIds g)).map Prod.fst).getLast?

/-- Whether two unordered block pairs coincide (`CG_mol.has_edge`). -/
def sameEdgeKey (p q : Nat × Nat) : Bool :=
  (p.1 = q.1 ∧ p.2 = q.2) ∨ (p.1 = q.2 ∧ p.2 = q.1)

/-- Merge one inter-block contribution into the quotient edge list:
`+=` on the existing edge or a fresh weighted edge. -/
def addWeight (es : List ((Nat × Nat) × Rat)) (i j : Nat) (w : Rat) :
    List ((Nat × Nat) × Rat) :=
  if es.any (fun e => sameEdgeKey e.1 (i, j)) then
    es.map (fun e => if sameEdgeKey e.1 (i, j) then (e.1, e.2 + w) else e)
  else es ++ [((i, j), w)]

/-- `blockmodel(G, partitions, **attrs)`. -/
def blockmodel (g : Graph Nat) (partitions : List (List Nat))
    (attrs : List (String × List Val)) : BlockGraph :=
  let bnodes := partitions.enum.map (fun bi =>
    let bd := subgraphOn g bi.2
    (bi.1, { graph := bd, nnodes := bd.nodes.length, nedges := bd.edges.length,
             density := densityOf bd,
             extra := attrs.map (fun kv => (kv.1, kv.2.get? bi.1)) : BlockNode }))
  let bedges := g.edges.foldl (fun es e =>
    match blockOf g partitions e.1, blockOf g partitions e.2.1 with
    | some bmu, some bmv =>
        if bmu = bmv then es else addWeight es bmu bmv (edgeWeight e.2.2)
    | _, _ => es) []
  { nodes := bnodes, edges := bedges }

/-- The clique pool of `maximum_common_subgraph`: the second-phase
cliques of every maximal heavy clique and of the synthetic empty seed
clique (`itertools.chain([[]], largest)`). -/
def mcsCollectedCliques (g1 : Graph α) (g2 : Graph β)
    (attributes : List String) : List (List (α × β)) :=
  ([[]] ++ find_cliques (mcsHeavyProduct g1 g2 attributes)).flatMap
    (fun c0 => find_cliques (mcsLeafProduct g1 g2 attributes c0))

/-- The node-admission condition of the second phase as the specification
states it, written from the spec's words for comparison with
`mcsLeafCond`: a degree ≤ 1 pair, attribute-compatible, whose
already-mapped `graph1`-neighbour translated through the seed mapping is
a `graph2`-neighbour, or with no neighbour recorded in either graph. -/
def specLeafNodeCond (g1 : Graph α) (g2 : Graph β) (attributes : List String)
    (clique : List (α × β)) (p : α × β) : Bool :=
  (g1.degree p.1 ≤ 1 || g2.degree p.2 ≤ 1) &&
    attrsMatch (g1.nodeAttrs p.1) (g2.nodeAttrs p.2) attributes &&
    ((g1.neighbors p.1).any (fun n =>
        match plookup n (dictOf clique) with
        | some img => img ∈ g2.neighbors p.2
        | none => false) ||
      ((g1.neighbors p.1).isEmpty && (g2.neighbors p.2).isEmpty))

/-- A two-carbon, one-edge graph used as a concrete input. -/
def exG1 : Graph Nat :=
  { nodes := [(1, [("element", .vstr "C")]), (2, [("element", .vstr "C")])],
    edges := [(1, 2, [])] }

/-- A second two-carbon, one-edge graph used as a concrete input. -/
def exG2 : Graph Nat :=
  { nodes := [(10, [("element", .vstr "C")]), (11, [("element", .vstr "C")])],
    edges := [(10, 11, [])] }

/-- A three-carbon triangle: a symmetric graph whose self-match has
non-identity automorphisms. -/
def exTri : Graph Nat :=
  { nodes := [(0, [("element", .vstr "C")]), (1, [("element", .vstr "C")]),
              (2, [("element", .vstr "C")])],
    edges := [(0, 1, []), (1, 2, []), (0, 2, [])] }

/-- The summed weight a quotient edge list carries between the blocks `i`
and `j` (`CG_mol[bmu][bmv]['weight']`, zero when the edge is absent). -/
def sumWeights (es : List ((Nat × Nat) × Rat)) (i j : Nat) : Rat :=
  ((es.filter (fun e => sameEdgeKey e.1 (i, j))).map Prod.snd).sum

/-- The total weight the source edges of `l` contribute between the two
blocks `i` and `j`: every edge whose endpoints map to the two blocks, in
either orientation. -/
def interBlockWeight (g : Graph Nat) (partitions : List (List Nat))
    (l : List (Nat × Nat × AttrMap)) (i j : Nat) : Rat :=
  ((l.filter (fun e =>
    (blockOf g partitions e.1 = some i ∧ blockOf g partitions e.2.1 = some j) ∨
    (blockOf g partitions e.1 = some j ∧ blockOf g partitions e.2.1 = some i))).map
    (fun e => edgeWeight e.2.2)).sum

/-- The concrete quotient example: nodes 1..4, inter-block edges
(1,3) of weight 2 and (2,3) of weight 1, and an intra-block edge (1,2). -/
def exQ : Graph Nat :=
  { nodes := [(1, []), (2, []), (3, []), (4, [])],
    edges := [(1, 3, [("weight", .vrat 2)]), (2, 3, [("weight", .vrat 1)]),
              (1, 2, [])] }

/-! ## Basic lemmas about the list helpers -/

theorem plookup_mem {γ δ : Type} [DecidableEq γ] {k : γ} {v : δ}
    {l : List (γ × δ)} (h : plookup k l = some v) : (k, v) ∈ l := by
  induction l with
  | nil => simp [plookup] at h
  | cons p rest ih =>
    obtain ⟨k2, v2⟩ := p
    by_cases hk : k2 = k
    · subst hk
      simp [plookup] at h
      simp [h]
    · simp [plookup, hk] at h
      exact List.mem_cons_of_mem _ (ih h)

theorem mem_pairsOf {γ : Type} {a b : γ} {l : List γ}
    (h : (a, b) ∈ pairsOf l) : a ∈ l ∧ b ∈ l := by
  induction l with
  | nil => simp [pairsOf] at h
  | cons x xs ih =>
    simp only [pairsOf, List.mem_append, List.mem_map] at h
    rcases h with ⟨y, hy, heq⟩ | h
    · cases heq
      exact ⟨List.mem_cons_self _ _, List.mem_cons_of_mem _ hy⟩
    · exact ⟨List.mem_cons_of_mem _ (ih h).1, List.mem_cons_of_mem _ (ih h).2⟩

theorem mem_pairsOf_or {γ : Type} {a b : γ} {l : List γ}
    (ha : a ∈ l) (hb : b ∈ l) (hne : a ≠ b) :
    (a, b) ∈ pairsOf l ∨ (b, a) ∈ pairsOf l := by
  induction l with
  | nil => simp at ha
  | cons x xs ih =>
    rcases List.mem_cons.mp ha with rfl | ha2
    · have hb2 : b ∈ xs := by
        rcases List.mem_cons.mp hb with rfl | h
        · exact absurd rfl hne
        · exact h
      exact Or.inl (List.mem_append_left _
        (List.mem_map_of_mem (fun y => (a, y)) hb2))
    · rcases List.mem_cons.mp hb with rfl | hb2
      · exact Or.inr (List.mem_append_left _
          (List.mem_map_of_mem (fun y => (b, y)) ha2))
      · rcases ih ha2 hb2 with h | h
        · exact Or.inl (List.mem_append_right _ h)
        · exact Or.inr (List.mem_append_right _ h)

theorem pairsOf_all_iff_pairwise {γ : Type} (P : γ → γ → Bool) (l : List γ) :
    ((pairsOf l).all (fun pq => P pq.1 pq.2) = true) ↔
      l.Pairwise (fun a b => P a b = true) := by
  induction l with
  | nil => simp [pairsOf]
  | cons x xs ih =>
    rw [List.all_eq_true, List.pairwise_cons]
    constructor
    · intro h
      refine ⟨fun b hb => ?_, ih.mp (List.all_eq_true.mpr fun pq hpq =>
        h pq (List.mem_append_right _ hpq))⟩
      simpa using h (x, b) (List.mem_append_left _
        (List.mem_map_of_mem (fun y => (x, y)) hb))
    · rintro ⟨h1, h2⟩ pq hpq
      simp only [pairsOf, List.mem_append, List.mem_map] at hpq
      rcases hpq with ⟨y, hy, heq⟩ | hpq
      · cases heq
        simpa using h1 y hy
      · exact List.all_eq_true.mp (ih.mpr h2) pq hpq

theorem dictOf_eq_self {γ δ : Type} [DecidableEq γ] {l : List (γ × δ)}
    (h : (l.map Prod.fst).Nodup) : dictOf l = l := by
  suffices haux : ∀ (d : List (γ × δ)), ((d ++ l).map Prod.fst).Nodup →
      l.foldl (fun d p => dictUpdate d p.1 p.2) d = d ++ l by
    simpa using haux [] (by simpa using h)
  clear h
  induction l with
  | nil => intro d _; simp
  | cons p rest ih =>
    intro d hd
    obtain ⟨k, v⟩ := p
    have hknotin : ¬ d.any (fun q => q.1 = k) = true := by
      simp only [List.any_eq_true, decide_eq_true_eq]
      rintro ⟨q, hq, hqk⟩
      have hnd := hd
      rw [List.map_append] at hnd
      have hdisj := (List.nodup_append.mp hnd).2.2
      exact hdisj (List.mem_map.mpr ⟨q, hq, hqk⟩) (by simp)
    have hstep : dictUpdate d k v = d ++ [(k, v)] := by
      simp only [dictUpdate]
      rw [if_neg hknotin]
    have hassoc : (d ++ [(k, v)]) ++ rest = d ++ (k, v) :: rest := by simp
    simp only [List.foldl_cons, hstep]
    rw [ih (d ++ [(k, v)]) (by rw [hassoc]; exact hd)]
    exact hassoc

/-! ## Product graph characterizations -/

theorem hasEdge_comm (g : Graph α) (a b : α) : g.hasEdge a b = g.hasEdge b a := by
  simp only [Graph.hasEdge]
  rw [Bool.eq_iff_iff]
  simp only [List.any_eq_true, decide_eq_true_eq]
  constructor <;> rintro ⟨e, he, h⟩ <;> exact ⟨e, he, h.symm⟩

theorem productEdgeCond_symm (g1 : Graph α) (g2 : Graph β) (p q : α × β) :
    productEdgeCond g1 g2 p q = productEdgeCond g1 g2 q p := by
  simp only [productEdgeCond]
  rw [hasEdge_comm g1 q.1 p.1, hasEdge_comm g2 q.2 p.2]
  rw [decide_eq_decide]
  constructor <;> rintro ⟨h1, h2, h3⟩ <;> exact ⟨Ne.symm h1, Ne.symm h2, h3⟩

theorem productEdgeCond_ne {g1 : Graph α} {g2 : Graph β} {p q : α × β}
    (h : productEdgeCond g1 g2 p q = true) :
    p.1 ≠ q.1 ∧ p.2 ≠ q.2 ∧ (g1.hasEdge p.1 q.1 = g2.hasEdge p.2 q.2) := by
  simpa [productEdgeCond] using h

theorem mem_xnorEdges {g1 : Graph α} {g2 : Graph β} {ns : List (α × β)}
    {w : Bool} {p q : α × β} {a : AttrMap} :
    (p, q, a) ∈ xnorEdges g1 g2 ns w ↔
      (p, q) ∈ pairsOf ns ∧ productEdgeCond g1 g2 p q = true ∧
        a = (if w ∧ g1.hasEdge p.1 q.1 ∧ g2.hasEdge p.2 q.2 then
          pairAttrs (g1.edgeAttrsOf p.1 q.1) (g2.edgeAttrsOf p.2 q.2) else []) := by
  simp only [xnorEdges, List.mem_filterMap]
  constructor
  · rintro ⟨pq, hpq, hif⟩
    by_cases hc : productEdgeCond g1 g2 pq.1 pq.2 = true
    · rw [if_pos hc, Option.some.injEq] at hif
      have h1 : pq.1 = p := congrArg Prod.fst hif
      have h2 : pq.2 = q := congrArg Prod.fst (congrArg Prod.snd hif)
      have h3 := congrArg (fun x => x.2.2) hif
      simp only at h3
      subst h1; subst h2
      exact ⟨by simpa using hpq, hc, h3.symm⟩
    · rw [if_neg hc] at hif
      exact absurd hif (by simp)
  · rintro ⟨hpq, hc, ha⟩
    exact ⟨(p, q), hpq, by rw [if_pos hc, ha]⟩

theorem hasEdge_xnor (g1 : Graph α) (g2 : Graph β) (ns : List (α × β))
    (ns2 : List ((α × β) × AttrMap)) (w : Bool) (p q : α × β) :
    Graph.hasEdge ⟨ns2, xnorEdges g1 g2 ns w⟩ p q = true ↔
      p ∈ ns ∧ q ∈ ns ∧ productEdgeCond g1 g2 p q = true := by
  simp only [Graph.hasEdge, List.any_eq_true, decide_eq_true_eq]
  constructor
  · rintro ⟨e, he, hor⟩
    obtain ⟨ep, eq2, ea⟩ := e
    rw [mem_xnorEdges] at he
    obtain ⟨hpair, hcond, -⟩ := he
    have hmem := mem_pairsOf hpair
    simp only at hor
    rcases hor with ⟨h1, h2⟩ | ⟨h1, h2⟩
    · subst h1; subst h2; exact ⟨hmem.1, hmem.2, hcond⟩
    · subst h1; subst h2
      exact ⟨hmem.2, hmem.1, (productEdgeCond_symm g1 g2 eq2 ep) ▸ hcond⟩
  · rintro ⟨hp, hq, hc⟩
    have hne : p ≠ q := fun h => (productEdgeCond_ne hc).1 (congrArg Prod.fst h)
    rcases mem_pairsOf_or hp hq hne with h | h
    · exact ⟨(p, q, if w ∧ g1.hasEdge p.1 q.1 ∧ g2.hasEdge p.2 q.2 then
          pairAttrs (g1.edgeAttrsOf p.1 q.1) (g2.edgeAttrsOf p.2 q.2) else []),
        mem_xnorEdges.mpr ⟨h, hc, rfl⟩, Or.inl ⟨rfl, rfl⟩⟩
    · exact ⟨(q, p, if w ∧ g1.hasEdge q.1 p.1 ∧ g2.hasEdge q.2 p.2 then
          pairAttrs (g1.edgeAttrsOf q.1 p.1) (g2.edgeAttrsOf q.2 p.2) else []),
        mem_xnorEdges.mpr ⟨h, (productEdgeCond_symm g1 g2 p q) ▸ hc, rfl⟩,
        Or.inr ⟨rfl, rfl⟩⟩

theorem nodeIds_cart (g1 : Graph α) (g2 : Graph β) (attributes : List String) :
    nodeIds (categorical_cartesian_product g1 g2 attributes) =
      ((nodeIds g1).product (nodeIds g2)).filter (fun p =>
        attrsMatch (g1.nodeAttrs p.1) (g2.nodeAttrs p.2) attributes) := by
  simp only [categorical_cartesian_product, nodeIds, List.map_map]
  have hcomp : (Prod.fst ∘ fun p : α × β =>
      (p, pairAttrs (g1.nodeAttrs p.1) (g2.nodeAttrs p.2))) = id := rfl
  rw [hcomp, List.map_id]

theorem attrsMatch_iff (n1 n2 : AttrMap) (attributes : List String) :
    attrsMatch n1 n2 attributes = true ↔
      ∀ a ∈ attributes, ∃ v, plookup a n1 = some v ∧ plookup a n2 = some v := by
  rw [attrsMatch, List.all_eq_true]
  constructor
  · intro h a ha
    have := h a ha
    cases h1 : plookup a n1 with
    | none => rw [h1] at this; simp at this
    | some v1 =>
      cases h2 : plookup a n2 with
      | none => rw [h1, h2] at this; simp at this
      | some v2 =>
        rw [h1, h2] at this
        simp only [decide_eq_true_eq] at this
        exact ⟨v1, rfl, this ▸ rfl⟩
  · intro h a ha
    obtain ⟨v, h1, h2⟩ := h a ha
    rw [h1, h2]
    simp

theorem mem_nodeIds_cart {g1 : Graph α} {g2 : Graph β}
    {attributes : List String} (a : α) (b : β) :
    (a, b) ∈ nodeIds (categorical_cartesian_product g1 g2 attributes) ↔
      a ∈ nodeIds g1 ∧ b ∈ nodeIds g2 ∧
        attrsMatch (g1.nodeAttrs a) (g2.nodeAttrs b) attributes = true := by
  rw [nodeIds_cart, List.mem_filter, List.pair_mem_product]
  tauto

theorem nodup_nodeIds_cart {g1 : Graph α} {g2 : Graph β}
    {attributes : List String} (h1 : (nodeIds g1).Nodup)
    (h2 : (nodeIds g2).Nodup) :
    (nodeIds (categorical_cartesian_product g1 g2 attributes)).Nodup := by
  rw [nodeIds_cart]
  exact (h1.product h2).filter _

theorem plookup_map_keys {γ δ : Type} [DecidableEq γ] (f : γ → δ)
    (ks : List γ) (k : γ) :
    plookup k (ks.map (fun k2 => (k2, f k2))) =
      if k ∈ ks then some (f k) else none := by
  induction ks with
  | nil => simp [plookup]
  | cons x xs ih =>
    simp only [List.map_cons, plookup]
    by_cases hx : x = k
    · subst hx; simp
    · rw [if_neg hx, ih]
      by_cases hk : k ∈ xs
      · simp [hk, Ne.symm hx]
      · simp [hk, Ne.symm hx, hx]

theorem plookup_pairAttrs (m1 m2 : AttrMap) (k : String) :
    plookup k (pairAttrs m1 m2) =
      if k ∈ m1.map Prod.fst ++ m2.map Prod.fst then
        some (.vpair ((plookup k m1).getD .vnone) ((plookup k m2).getD .vnone))
      else none := by
  rw [pairAttrs, plookup_map_keys]
  by_cases h : k ∈ (m1.map Prod.fst ++ m2.map Prod.fst)
  · rw [if_pos (List.mem_dedup.mpr h), if_pos h]
  · rw [if_neg (fun hc => h (List.mem_dedup.mp hc)), if_neg h]

/-- **C2**: `categorical_modular_product(graph1, graph2, attributes)`
returns a graph whose nodes are exactly the pairs agreeing on every
selected attribute (present on both sides), whose edges connect two
product nodes exactly when the components are distinct on both sides and
the two source adjacencies agree (XNOR), and whose product edges, when
both source edges exist, pair every attribute of either source edge with
`None` for an absent value. -/
theorem claim_C2_modular_product (g1 : Graph α) (g2 : Graph β)
    (attributes : List String) :
    (∀ a b, (a, b) ∈ nodeIds (categorical_modular_product g1 g2 attributes) ↔
        a ∈ nodeIds g1 ∧ b ∈ nodeIds g2 ∧
          ∀ attr ∈ attributes, ∃ v,
            plookup attr (g1.nodeAttrs a) = some v ∧
            plookup attr (g2.nodeAttrs b) = some v) ∧
    (∀ a1 b1 a2 b2,
        (categorical_modular_product g1 g2 attributes).hasEdge
            (a1, b1) (a2, b2) = true ↔
          (a1, b1) ∈ nodeIds (categorical_modular_product g1 g2 attributes) ∧
          (a2, b2) ∈ nodeIds (categorical_modular_product g1 g2 attributes) ∧
          a1 ≠ a2 ∧ b1 ≠ b2 ∧
          (g1.hasEdge a1 a2 = true ↔ g2.hasEdge b1 b2 = true)) ∧
    (∀ p q a, (p, q, a) ∈ (categorical_modular_product g1 g2 attributes).edges →
        g1.hasEdge p.1 q.1 = true → g2.hasEdge p.2 q.2 = true →
        ∀ k, (k ∈ (g1.edgeAttrsOf p.1 q.1).map Prod.fst ∨
              k ∈ (g2.edgeAttrsOf p.2 q.2).map Prod.fst) →
          plookup k a = some (.vpair
            ((plookup k (g1.edgeAttrsOf p.1 q.1)).getD .vnone)
            ((plookup k (g2.edgeAttrsOf p.2 q.2)).getD .vnone))) := by
  have hnodes : nodeIds (categorical_modular_product g1 g2 attributes) =
      nodeIds (categorical_cartesian_product g1 g2 attributes) := rfl
  have hedges : (categorical_modular_product g1 g2 attributes).edges =
      xnorEdges g1 g2
        (nodeIds (categorical_cartesian_product g1 g2 attributes)) true := rfl
  refine ⟨?_, ?_, ?_⟩
  · intro a b
    rw [hnodes, mem_nodeIds_cart, attrsMatch_iff]
  · intro a1 b1 a2 b2
    have hx := hasEdge_xnor g1 g2
      (nodeIds (categorical_cartesian_product g1 g2 attributes))
      (categorical_modular_product g1 g2 attributes).nodes
      true (a1, b1) (a2, b2)
    rw [show (Graph.mk (categorical_modular_product g1 g2 attributes).nodes
        (xnorEdges g1 g2
          (nodeIds (categorical_cartesian_product g1 g2 attributes)) true)) =
        categorical_modular_product g1 g2 attributes from rfl] at hx
    rw [hx, hnodes]
    have hcond : productEdgeCond g1 g2 (a1, b1) (a2, b2) = true ↔
        a1 ≠ a2 ∧ b1 ≠ b2 ∧
          (g1.hasEdge a1 a2 = true ↔ g2.hasEdge b1 b2 = true) := by
      simp only [productEdgeCond, decide_eq_true_eq]
      rw [Bool.eq_iff_iff]
    rw [hcond]
  · intro p q a hmem he1 he2 k hk
    rw [hedges] at hmem
    rw [mem_xnorEdges] at hmem
    obtain ⟨-, -, ha⟩ := hmem
    rw [if_pos ⟨rfl, he1, he2⟩] at ha
    subst ha
    rw [plookup_pairAttrs, if_pos (List.mem_append.mpr hk)]

/-! ## Cliques, maxes, sorting and de-duplication -/

theorem cliqueB_iff (g : Graph α) (s : List α) :
    cliqueB g s = true ↔ (∀ x ∈ s, x ∈ nodeIds g) ∧
      s.Pairwise (fun a b => g.hasEdge a b = true) := by
  rw [cliqueB, Bool.and_eq_true, List.all_eq_true,
    pairsOf_all_iff_pairwise (fun a b => g.hasEdge a b)]
  constructor <;> rintro ⟨hmem, hpw⟩ <;>
    exact ⟨fun x hx => by simpa using hmem x hx, hpw⟩

theorem isMaxCliqueB_iff (g : Graph α) (s : List α) :
    isMaxCliqueB g s = true ↔ cliqueB g s = true ∧ s ≠ [] ∧
      ∀ v ∈ nodeIds g, v ∉ s → ¬ (∀ u ∈ s, g.hasEdge v u = true) := by
  rw [isMaxCliqueB, Bool.and_eq_true, Bool.and_eq_true, List.all_eq_true]
  constructor
  · rintro ⟨⟨hc, hne⟩, hmax⟩
    refine ⟨hc, by simpa using hne, fun v hv hvs hall => ?_⟩
    have := hmax v hv
    simp only [Bool.or_eq_true, Bool.not_eq_true', decide_eq_true_eq] at this
    rcases this with h | h
    · exact hvs h
    · rw [List.all_eq_false] at h
      obtain ⟨u, hu, hnadj⟩ := h
      exact hnadj (by simpa using hall u hu)
  · rintro ⟨hc, hne, hmax⟩
    refine ⟨⟨hc, by simpa using hne⟩, fun v hv => ?_⟩
    simp only [Bool.or_eq_true, Bool.not_eq_true', decide_eq_true_eq]
    by_cases hvs : v ∈ s
    · exact Or.inl hvs
    · refine Or.inr (List.all_eq_false.mpr ?_)
      by_contra hall
      push_neg at hall
      exact hmax v hv hvs fun u hu => by
        have := hall u hu
        simpa using this

theorem mem_find_cliques {g : Graph α} {c : List α} :
    c ∈ find_cliques g ↔ List.Sublist c (nodeIds g) ∧
      isMaxCliqueB g c = true := by
  rw [find_cliques, List.mem_filter, List.mem_sublists]

theorem find_cliques_nodup {g : Graph α} {c : List α}
    (hg : (nodeIds g).Nodup) (hc : c ∈ find_cliques g) : c.Nodup :=
  List.Nodup.sublist (mem_find_cliques.mp hc).1 hg

theorem cliqueB_perm {g : Graph α} {s t : List α} (hp : List.Perm s t)
    (h : cliqueB g s = true) : cliqueB g t = true := by
  rw [cliqueB_iff] at h ⊢
  refine ⟨fun x hx => h.1 x (hp.symm.subset hx), ?_⟩
  have hsym : ∀ {a b : α}, g.hasEdge a b = true → g.hasEdge b a = true :=
    fun h2 => by rwa [hasEdge_comm]
  exact (List.Perm.pairwise_iff (fun h2 => hsym h2) hp).mp h.2

theorem clique_le_max {g : Graph α} :
    ∀ s : List α, cliqueB g s = true → s.Nodup → s ≠ [] →
      ∃ t ∈ find_cliques g, s.length ≤ t.length := by
  suffices haux : ∀ (k : Nat) (s : List α),
      (nodeIds g).length - s.length ≤ k → cliqueB g s = true → s.Nodup →
      s ≠ [] → ∃ t ∈ find_cliques g, s.length ≤ t.length by
    intro s h1 h2 h3
    exact haux ((nodeIds g).length - s.length) s le_rfl h1 h2 h3
  intro k
  induction k with
  | zero =>
    intro s hk h1 h2 h3
    -- the measure is exhausted: s already uses every node, so it is maximal
    have hsub : ∀ x ∈ s, x ∈ nodeIds g := ((cliqueB_iff g s).mp h1).1
    have hsp : List.Subperm s (nodeIds g) := List.Nodup.subperm h2 hsub
    have hlen : s.length = (nodeIds g).length :=
      le_antisymm (List.Subperm.length_le hsp) (by omega)
    obtain ⟨t, htp, hts⟩ := hsp
    have hteq : t = nodeIds g :=
      List.Sublist.eq_of_length hts (htp.length_eq.trans hlen)
    refine ⟨t, mem_find_cliques.mpr ⟨hts, (isMaxCliqueB_iff g t).mpr
      ⟨cliqueB_perm htp.symm h1, ?_, ?_⟩⟩, le_of_eq htp.length_eq.symm⟩
    · intro hnil
      rw [hnil] at htp
      exact h3 htp.symm.eq_nil
    · intro v hv hvt _
      exact hvt (by rw [hteq]; exact hv)
  | succ n ih =>
    intro s hk h1 h2 h3
    by_cases hext : ∃ v ∈ nodeIds g, v ∉ s ∧ ∀ u ∈ s, g.hasEdge v u = true
    · obtain ⟨v, hv, hvs, hall⟩ := hext
      have h1x : cliqueB g (v :: s) = true := by
        rw [cliqueB_iff]
        refine ⟨fun x hx => ?_, List.pairwise_cons.mpr
          ⟨hall, ((cliqueB_iff g s).mp h1).2⟩⟩
        rcases List.mem_cons.mp hx with rfl | hx2
        · exact hv
        · exact ((cliqueB_iff g s).mp h1).1 x hx2
      have h2x : (v :: s).Nodup := List.nodup_cons.mpr ⟨hvs, h2⟩
      have hlenx : (v :: s).length ≤ (nodeIds g).length :=
        List.Subperm.length_le (List.Nodup.subperm h2x
          (((cliqueB_iff g (v :: s)).mp h1x).1))
      have hkx : (nodeIds g).length - (v :: s).length ≤ n := by
        simp only [List.length_cons] at hlenx ⊢
        omega
      obtain ⟨t, ht, hlt⟩ := ih (v :: s) hkx h1x h2x (by simp)
      exact ⟨t, ht, le_trans (by simp) hlt⟩
    · have hsub : ∀ x ∈ s, x ∈ nodeIds g := ((cliqueB_iff g s).mp h1).1
      have hsp : List.Subperm s (nodeIds g) := List.Nodup.subperm h2 hsub
      obtain ⟨t, htp, hts⟩ := hsp
      refine ⟨t, mem_find_cliques.mpr ⟨hts, (isMaxCliqueB_iff g t).mpr
        ⟨cliqueB_perm htp.symm h1, ?_, ?_⟩⟩, le_of_eq htp.length_eq.symm⟩
      · intro hnil
        rw [hnil] at htp
        exact h3 htp.symm.eq_nil
      · intro v hv hvt hall
        exact hext ⟨v, hv, fun hvs => hvt (htp.symm.subset hvs),
          fun u hu => hall u (htp.symm.subset hu)⟩

theorem mem_maxes {γ : Type} {key : γ → Nat} {l : List γ} {x : γ} :
    x ∈ maxes key l ↔ x ∈ l ∧ ∀ y ∈ l, key y ≤ key x := by
  rw [maxes, List.mem_filter, List.all_eq_true]
  constructor
  · rintro ⟨hx, hall⟩
    exact ⟨hx, fun y hy => by simpa using hall y hy⟩
  · rintro ⟨hx, hall⟩
    exact ⟨hx, fun y hy => by simpa using hall y hy⟩

theorem maxes_key_eq {γ : Type} {key : γ → Nat} {l : List γ} {x y : γ}
    (hx : x ∈ maxes key l) (hy : y ∈ maxes key l) : key x = key y :=
  le_antisymm ((mem_maxes.mp hy).2 x (mem_maxes.mp hx).1)
    ((mem_maxes.mp hx).2 y (mem_maxes.mp hy).1)

theorem insertDesc_perm {γ : Type} (key : γ → Nat) (x : γ) (l : List γ) :
    List.Perm (insertDesc key x l) (x :: l) := by
  induction l with
  | nil => simp [insertDesc]
  | cons y ys ih =>
    rw [insertDesc]
    by_cases h : key y ≤ key x
    · rw [if_pos h]
    · rw [if_neg h]
      exact (ih.cons y).trans (List.Perm.swap x y ys)

theorem sortDesc_perm {γ : Type} (key : γ → Nat) (l : List γ) :
    List.Perm (sortDesc key l) l := by
  induction l with
  | nil => simp [sortDesc]
  | cons x xs ih =>
    exact (insertDesc_perm key x (sortDesc key xs)).trans (ih.cons x)

theorem insertDesc_sorted {γ : Type} (key : γ → Nat) (x : γ) {l : List γ}
    (h : l.Pairwise (fun a b => key b ≤ key a)) :
    (insertDesc key x l).Pairwise (fun a b => key b ≤ key a) := by
  induction l with
  | nil => simp [insertDesc]
  | cons y ys ih =>
    rw [insertDesc]
    obtain ⟨hy, hys⟩ := List.pairwise_cons.mp h
    by_cases hc : key y ≤ key x
    · rw [if_pos hc]
      refine List.pairwise_cons.mpr ⟨fun b hb => ?_, h⟩
      rcases List.mem_cons.mp hb with rfl | hb2
      · exact hc
      · exact le_trans (hy b hb2) hc
    · rw [if_neg hc]
      refine List.pairwise_cons.mpr ⟨fun b hb => ?_, ih hys⟩
      have hmem := (insertDesc_perm key x ys).subset hb
      rcases List.mem_cons.mp hmem with rfl | hb2
      · exact le_of_not_le hc
      · exact hy b hb2

theorem sortDesc_sorted {γ : Type} (key : γ → Nat) (l : List γ) :
    (sortDesc key l).Pairwise (fun a b => key b ≤ key a) := by
  induction l with
  | nil => simp [sortDesc]
  | cons x xs ih => exact insertDesc_sorted key x ih

theorem dedupSets_grows {γ : Type} [DecidableEq γ]
    (rest : List (List γ)) (acc : List (List γ)) {x : List γ} (hx : x ∈ acc) :
    x ∈ rest.foldl (fun acc c => if acc.any (fun c2 => setEqB c2 c) then acc
      else acc ++ [c]) acc := by
  induction rest generalizing acc with
  | nil => exact hx
  | cons c cs ih =>
    simp only [List.foldl_cons]
    by_cases hc : acc.any (fun c2 => setEqB c2 c) = true
    · rw [if_pos hc]; exact ih _ hx
    · rw [if_neg hc]; exact ih _ (List.mem_append_left _ hx)

theorem setEqB_refl {γ : Type} [DecidableEq γ] (x : List γ) :
    setEqB x x = true := by
  simp [setEqB, List.all_eq_true]

theorem dedupSets_subset {γ : Type} [DecidableEq γ] {l : List (List γ)}
    {x : List γ} (hx : x ∈ dedupSets l) : x ∈ l := by
  suffices haux : ∀ (rest : List (List γ)) (acc : List (List γ)) (x : List γ),
      x ∈ rest.foldl (fun acc c => if acc.any (fun c2 => setEqB c2 c) then acc
        else acc ++ [c]) acc → x ∈ acc ∨ x ∈ rest by
    rcases haux l [] x hx with h | h
    · simp at h
    · exact h
  intro rest
  induction rest with
  | nil => intro acc x hx; exact Or.inl hx
  | cons c cs ih =>
    intro acc x hx
    simp only [List.foldl_cons] at hx
    by_cases hc : acc.any (fun c2 => setEqB c2 c) = true
    · rw [if_pos hc] at hx
      rcases ih acc x hx with h | h
      · exact Or.inl h
      · exact Or.inr (List.mem_cons_of_mem _ h)
    · rw [if_neg hc] at hx
      rcases ih _ x hx with h | h
      · rcases List.mem_append.mp h with h2 | h2
        · exact Or.inl h2
        · simp only [List.mem_singleton] at h2
          exact Or.inr (h2 ▸ List.mem_cons_self _ _)
      · exact Or.inr (List.mem_cons_of_mem _ h)

theorem dedupSets_covers {γ : Type} [DecidableEq γ] {l : List (List γ)}
    {y : List γ} (hy : y ∈ l) : ∃ x ∈ dedupSets l, setEqB x y = true := by
  suffices haux : ∀ (rest : List (List γ)) (acc : List (List γ)) (y : List γ),
      y ∈ rest → ∃ x ∈ rest.foldl (fun acc c =>
        if acc.any (fun c2 => setEqB c2 c) then acc else acc ++ [c]) acc,
        setEqB x y = true by
    exact haux l [] y hy
  intro rest
  induction rest with
  | nil => intro acc y hy; simp at hy
  | cons c cs ih =>
    intro acc y hy
    simp only [List.foldl_cons]
    rcases List.mem_cons.mp hy with rfl | hy2
    · by_cases hc : acc.any (fun c2 => setEqB c2 y) = true
      · obtain ⟨x, hxacc, hxeq⟩ := List.any_eq_true.mp hc
        rw [if_pos hc]
        exact ⟨x, dedupSets_grows cs acc hxacc, by simpa using hxeq⟩
      · rw [if_neg hc]
        exact ⟨y, dedupSets_grows cs _
          (List.mem_append_right _ (by simp)), setEqB_refl y⟩
    · exact ih _ y hy2

theorem dedupSets_pairwise {γ : Type} [DecidableEq γ] (l : List (List γ)) :
    (dedupSets l).Pairwise (fun a b => ¬ setEqB a b = true) := by
  suffices haux : ∀ (rest : List (List γ)) (acc : List (List γ)),
      acc.Pairwise (fun a b => ¬ setEqB a b = true) →
      (rest.foldl (fun acc c => if acc.any (fun c2 => setEqB c2 c) then acc
        else acc ++ [c]) acc).Pairwise (fun a b => ¬ setEqB a b = true) by
    exact haux l [] (by simp)
  intro rest
  induction rest with
  | nil => intro acc hacc; exact hacc
  | cons c cs ih =>
    intro acc hacc
    simp only [List.foldl_cons]
    by_cases hc : acc.any (fun c2 => setEqB c2 c) = true
    · rw [if_pos hc]
      exact ih acc hacc
    · rw [if_neg hc]
      refine ih (acc ++ [c]) ?_
      rw [List.pairwise_append]
      refine ⟨hacc, by simp, fun a ha b hb => ?_⟩
      simp only [List.mem_singleton] at hb
      subst hb
      exact fun heq => hc (List.any_eq_true.mpr ⟨a, ha, by simpa using heq⟩)

/-! ## Injectivity of cliques and matches -/

theorem xnor_hasEdge_ne {g1 : Graph α} {g2 : Graph β} {ns : List (α × β)}
    {ns2 : List ((α × β) × AttrMap)} {w : Bool} (p q : α × β)
    (h : Graph.hasEdge ⟨ns2, xnorEdges g1 g2 ns w⟩ p q = true) :
    p.1 ≠ q.1 ∧ p.2 ≠ q.2 := by
  have hc := ((hasEdge_xnor g1 g2 ns ns2 w p q).mp h).2.2
  exact ⟨(productEdgeCond_ne hc).1, (productEdgeCond_ne hc).2.1⟩

theorem nodup_of_pairwise_adj {G : Graph (α × β)} {c : List (α × β)}
    (hadj : ∀ p q : α × β, G.hasEdge p q = true → p.1 ≠ q.1 ∧ p.2 ≠ q.2)
    (hc : cliqueB G c = true) :
    (c.map Prod.fst).Nodup ∧ (c.map Prod.snd).Nodup := by
  have hpw := ((cliqueB_iff G c).mp hc).2
  constructor
  · exact List.pairwise_map.mpr (hpw.imp (fun h => (hadj _ _ h).1))
  · exact List.pairwise_map.mpr (hpw.imp (fun h => (hadj _ _ h).2))

theorem inj_of_values_nodup {γ δ : Type} {m : List (γ × δ)}
    (hv : (m.map Prod.snd).Nodup) :
    ∀ p ∈ m, ∀ q ∈ m, p.1 ≠ q.1 → p.2 ≠ q.2 := by
  intro p hp q hq hne heq
  exact hne (congrArg Prod.fst (List.inj_on_of_nodup_map hv hp hq heq))

theorem isValidIso_parts {reference residue : Graph α} {m : List (α × α)}
    (h : isValidIso reference residue m = true) :
    (m.map Prod.fst).Nodup ∧ (m.map Prod.snd).Nodup ∧
      (∀ pq ∈ pairsOf m,
        reference.hasEdge pq.1.1 pq.2.1 = residue.hasEdge pq.1.2 pq.2.2) ∧
      (∀ p ∈ m,
        reference.nodeAttr p.1 "element" = residue.nodeAttr p.2 "element") := by
  rw [isValidIso, Bool.and_eq_true, Bool.and_eq_true, Bool.and_eq_true] at h
  obtain ⟨⟨⟨h1, h2⟩, h3⟩, h4⟩ := h
  refine ⟨by simpa using h1, by simpa using h2, fun pq hpq => ?_, fun p hp => ?_⟩
  · simpa using List.all_eq_true.mp h3 pq hpq
  · simpa using List.all_eq_true.mp h4 p hp

theorem mem_completionsFrom {reference residue : Graph α}
    {seed m : List (α × α)}
    (h : m ∈ completionsFrom reference residue seed) :
    isValidIso reference residue m = true ∧ ∃ rest, m = seed ++ rest := by
  simp only [completionsFrom, List.mem_filter, List.mem_map] at h
  obtain ⟨⟨mm, hmm, rfl⟩, hvalid⟩ := h
  exact ⟨hvalid, mm, rfl⟩

theorem mem_isoContribution {reference residue : Graph α}
    {hm m : List (α × α)} (h : m ∈ isoContribution reference residue hm) :
    m ∈ completionsFrom reference residue
      (extendLeaves reference residue (leafIdxs residue) hm).1 := by
  simp only [isoContribution] at h
  split at h
  · exact h
  · exact List.take_subset _ _ h

theorem mem_isomorphism {reference residue : Graph α} {m : List (α × α)}
    (h : m ∈ isomorphism reference residue) :
    ∃ hm ∈ subIsoList reference (heavyGraph residue),
      m ∈ isoContribution reference residue hm := by
  simp only [isomorphism] at h
  have h2 := (sortDesc_perm _ _).subset h
  exact List.mem_flatMap.mp h2

/-- **C1**: every Match returned by `isomorphism`,
`maximum_common_subgraph` and `categorical_maximum_common_subgraph` is
injective on its domain: two entries with distinct keys have distinct
values. -/
theorem claim_C1_matches_injective (g1 : Graph α) (g2 : Graph β)
    (reference residue : Graph α) (attributes : List String) :
    (∀ m ∈ categorical_maximum_common_subgraph g1 g2 attributes,
      ∀ p ∈ m, ∀ q ∈ m, p.1 ≠ q.1 → p.2 ≠ q.2) ∧
    (∀ m ∈ maximum_common_subgraph g1 g2 attributes,
      ∀ p ∈ m, ∀ q ∈ m, p.1 ≠ q.1 → p.2 ≠ q.2) ∧
    (∀ m ∈ isomorphism reference residue,
      ∀ p ∈ m, ∀ q ∈ m, p.1 ≠ q.1 → p.2 ≠ q.2) := by
  refine ⟨?_, ?_, ?_⟩
  · intro m hm
    simp only [categorical_maximum_common_subgraph, List.mem_map] at hm
    obtain ⟨c, hc, rfl⟩ := hm
    have hcl := ((isMaxCliqueB_iff _ _).mp
      (mem_find_cliques.mp (mem_maxes.mp hc).1).2).1
    have hnd := nodup_of_pairwise_adj (fun p q h => xnor_hasEdge_ne p q h) hcl
    rw [dictOf_eq_self hnd.1]
    exact inj_of_values_nodup hnd.2
  · intro m hm
    simp only [maximum_common_subgraph, List.mem_map] at hm
    obtain ⟨c, hc, rfl⟩ := hm
    have hc2 := (mem_maxes.mp (dedupSets_subset hc)).1
    rw [List.mem_flatMap] at hc2
    obtain ⟨c0, -, hc3⟩ := hc2
    have hcl := ((isMaxCliqueB_iff _ _).mp (mem_find_cliques.mp hc3).2).1
    have hnd := nodup_of_pairwise_adj (fun p q h => xnor_hasEdge_ne p q h) hcl
    rw [dictOf_eq_self hnd.1]
    exact inj_of_values_nodup hnd.2
  · intro m hm
    obtain ⟨hmh, -, hcontrib⟩ := mem_isomorphism hm
    have hvalid := (mem_completionsFrom (mem_isoContribution hcontrib)).1
    exact inj_of_values_nodup (isValidIso_parts hvalid).2.1

/-- **C3**: every Match of `categorical_maximum_common_subgraph` is (the
dict of) a maximal clique of the modular product graph of maximum
cardinality: no clique of the modular product is strictly larger, all
returned Matches have equal size, every tied maximum clique is retained,
and the result is empty when no node pair is attribute-compatible. -/
theorem claim_C3_categorical_mcs (g1 : Graph α) (g2 : Graph β)
    (attributes : List String) :
    (∀ m ∈ categorical_maximum_common_subgraph g1 g2 attributes,
       ∃ c ∈ find_cliques (categorical_modular_product g1 g2 attributes),
         m = dictOf c ∧
         ∀ s, cliqueB (categorical_modular_product g1 g2 attributes) s = true →
           s.Nodup → s.length ≤ c.length) ∧
    (∀ m ∈ categorical_maximum_common_subgraph g1 g2 attributes,
       ∀ m2 ∈ categorical_maximum_common_subgraph g1 g2 attributes,
         m.length = m2.length) ∧
    (∀ c ∈ find_cliques (categorical_modular_product g1 g2 attributes),
       (∀ c2 ∈ find_cliques (categorical_modular_product g1 g2 attributes),
         c2.length ≤ c.length) →
       dictOf c ∈ categorical_maximum_common_subgraph g1 g2 attributes) ∧
    ((∀ a ∈ nodeIds g1, ∀ b ∈ nodeIds g2,
        attrsMatch (g1.nodeAttrs a) (g2.nodeAttrs b) attributes = false) →
       categorical_maximum_common_subgraph g1 g2 attributes = []) := by
  refine ⟨?_, ?_, ?_, ?_⟩
  · intro m hm
    simp only [categorical_maximum_common_subgraph, List.mem_map] at hm
    obtain ⟨c, hc, rfl⟩ := hm
    obtain ⟨hcmem, hcmax⟩ := mem_maxes.mp hc
    refine ⟨c, hcmem, rfl, fun s hs hsnd => ?_⟩
    rcases eq_or_ne s [] with rfl | hsne
    · simp
    · obtain ⟨t, ht, hlt⟩ := clique_le_max s hs hsnd hsne
      exact le_trans hlt (hcmax t ht)
  · intro m hm m2 hm2
    simp only [categorical_maximum_common_subgraph, List.mem_map] at hm hm2
    obtain ⟨c, hc, rfl⟩ := hm
    obtain ⟨c2, hc2, rfl⟩ := hm2
    have hndc := nodup_of_pairwise_adj (fun p q h => xnor_hasEdge_ne p q h)
      ((isMaxCliqueB_iff _ _).mp (mem_find_cliques.mp (mem_maxes.mp hc).1).2).1
    have hndc2 := nodup_of_pairwise_adj (fun p q h => xnor_hasEdge_ne p q h)
      ((isMaxCliqueB_iff _ _).mp (mem_find_cliques.mp (mem_maxes.mp hc2).1).2).1
    rw [dictOf_eq_self hndc.1, dictOf_eq_self hndc2.1]
    exact maxes_key_eq hc hc2
  · intro c hc hmax
    simp only [categorical_maximum_common_subgraph, List.mem_map]
    exact ⟨c, mem_maxes.mpr ⟨hc, hmax⟩, rfl⟩
  · intro hincomp
    have hnil : nodeIds (categorical_modular_product g1 g2 attributes) = [] := by
      show nodeIds (categorical_cartesian_product g1 g2 attributes) = []
      rw [nodeIds_cart]
      rw [List.filter_eq_nil_iff]
      intro p hp
      obtain ⟨hp1, hp2⟩ := List.pair_mem_product.mp (by
        rw [show (p.1, p.2) = p from rfl]
        exact hp)
      rw [hincomp p.1 hp1 p.2 hp2]
      simp
    have hfc : find_cliques (categorical_modular_product g1 g2 attributes)
        = [] := by
      rw [find_cliques, hnil]
      simp [isMaxCliqueB]
    simp only [categorical_maximum_common_subgraph, hfc]
    rfl

/-! ## The two-phase maximum common subgraph (C4) -/

theorem mcs_as_collected (g1 : Graph α) (g2 : Graph β)
    (attributes : List String) :
    maximum_common_subgraph g1 g2 attributes =
      (dedupSets (maxes List.length
        (mcsCollectedCliques g1 g2 attributes))).map dictOf := rfl

theorem collected_nodups {g1 : Graph α} {g2 : Graph β}
    {attributes : List String} {c : List (α × β)}
    (hc : c ∈ mcsCollectedCliques g1 g2 attributes) :
    (c.map Prod.fst).Nodup ∧ (c.map Prod.snd).Nodup := by
  rw [mcsCollectedCliques, List.mem_flatMap] at hc
  obtain ⟨c0, -, hc2⟩ := hc
  exact nodup_of_pairwise_adj (fun p q h => xnor_hasEdge_ne p q h)
    ((isMaxCliqueB_iff _ _).mp (mem_find_cliques.mp hc2).2).1

theorem setEqB_of_perm {γ : Type} [DecidableEq γ] {a b : List γ}
    (h : List.Perm a b) : setEqB a b = true := by
  rw [setEqB, Bool.and_eq_true, List.all_eq_true, List.all_eq_true]
  exact ⟨fun x hx => by simpa using h.subset hx,
    fun x hx => by simpa using h.symm.subset hx⟩

theorem perm_of_setEqB {γ : Type} [DecidableEq γ] {a b : List γ}
    (ha : a.Nodup) (hb : b.Nodup) (h : setEqB a b = true) : List.Perm a b := by
  rw [setEqB, Bool.and_eq_true, List.all_eq_true, List.all_eq_true] at h
  have hab : a ⊆ b := fun x hx => by simpa using h.1 x hx
  have hba : b ⊆ a := fun x hx => by simpa using h.2 x hx
  exact List.Subperm.perm_of_length_le (List.Nodup.subperm ha hab)
    (List.Subperm.length_le (List.Nodup.subperm hb hba))

/-- **C4**: `maximum_common_subgraph` pools the second-phase cliques of
every maximal heavy clique (plus the synthetic empty seed) and returns
exactly the pool's maximum-cardinality cliques, de-duplicated as
order-independent node-pair sets: every returned Match is a dict of a
pool clique of maximum size, every maximum-size pool clique is
represented up to reordering, all returned Matches have equal length, and
no two returned Matches hold the same node pairs. -/
theorem claim_C4_mcs_pooling (g1 : Graph α) (g2 : Graph β)
    (attributes : List String) :
    (∀ m ∈ maximum_common_subgraph g1 g2 attributes,
       ∃ c ∈ mcsCollectedCliques g1 g2 attributes, m = dictOf c ∧
         ∀ c2 ∈ mcsCollectedCliques g1 g2 attributes,
           c2.length ≤ c.length) ∧
    (∀ c ∈ mcsCollectedCliques g1 g2 attributes,
       (∀ c2 ∈ mcsCollectedCliques g1 g2 attributes,
         c2.length ≤ c.length) →
       ∃ m ∈ maximum_common_subgraph g1 g2 attributes,
         List.Perm m (dictOf c)) ∧
    (∀ m ∈ maximum_common_subgraph g1 g2 attributes,
       ∀ m2 ∈ maximum_common_subgraph g1 g2 attributes,
         m.length = m2.length) ∧
    (maximum_common_subgraph g1 g2 attributes).Pairwise
      (fun m m2 => ¬ List.Perm m m2) := by
  refine ⟨?_, ?_, ?_, ?_⟩
  · intro m hm
    rw [mcs_as_collected] at hm
    obtain ⟨c, hc, rfl⟩ := List.mem_map.mp hm
    obtain ⟨hmem, hmax⟩ := mem_maxes.mp (dedupSets_subset hc)
    exact ⟨c, hmem, rfl, hmax⟩
  · intro c hc hmax
    have hlargest : c ∈ maxes List.length
        (mcsCollectedCliques g1 g2 attributes) := mem_maxes.mpr ⟨hc, hmax⟩
    obtain ⟨x, hx, hseteq⟩ := dedupSets_covers hlargest
    refine ⟨dictOf x, by
      rw [mcs_as_collected]
      exact List.mem_map_of_mem dictOf hx, ?_⟩
    have hxc := (mem_maxes.mp (dedupSets_subset hx)).1
    have hndx := collected_nodups hxc
    have hndc := collected_nodups hc
    rw [dictOf_eq_self hndx.1, dictOf_eq_self hndc.1]
    exact perm_of_setEqB (List.Nodup.of_map _ hndx.1)
      (List.Nodup.of_map _ hndc.1) hseteq
  · intro m hm m2 hm2
    rw [mcs_as_collected] at hm hm2
    obtain ⟨c, hc, rfl⟩ := List.mem_map.mp hm
    obtain ⟨c2, hc2, rfl⟩ := List.mem_map.mp hm2
    have h1 := dedupSets_subset hc
    have h2 := dedupSets_subset hc2
    rw [dictOf_eq_self (collected_nodups (mem_maxes.mp h1).1).1,
      dictOf_eq_self (collected_nodups (mem_maxes.mp h2).1).1]
    exact maxes_key_eq h1 h2
  · rw [mcs_as_collected]
    rw [List.pairwise_map]
    refine List.Pairwise.imp_of_mem ?_
      (dedupSets_pairwise (maxes List.length
        (mcsCollectedCliques g1 g2 attributes)))
    intro a b ha hb hne hperm
    have hnda := collected_nodups (mem_maxes.mp (dedupSets_subset ha)).1
    have hndb := collected_nodups (mem_maxes.mp (dedupSets_subset hb)).1
    rw [dictOf_eq_self hnda.1, dictOf_eq_self hndb.1] at hperm
    exact hne (setEqB_of_perm hperm)

/-! ## The second-phase leaf product graph (C5) -/

theorem nodeIds_leaf (g1 : Graph α) (g2 : Graph β) (attributes : List String)
    (clique : List (α × β)) :
    nodeIds (mcsLeafProduct g1 g2 attributes clique) =
      clique ++ ((nodeIds g1).product (nodeIds g2)).filter
        (mcsLeafCond g1 g2 attributes clique) := by
  simp only [mcsLeafProduct, nodeIds, List.map_map]
  have hcomp : (Prod.fst ∘ fun p : α × β => (p, ([] : AttrMap))) = id := rfl
  rw [hcomp, List.map_id]

theorem mcsLeafCond_iff (g1 : Graph α) (g2 : Graph β)
    (attributes : List String) (clique : List (α × β)) (p : α × β) :
    mcsLeafCond g1 g2 attributes clique p = true ↔
      ((g1.degree p.1 ≤ 1 ∨ g2.degree p.2 ≤ 1) ∧
       attrsMatch (g1.nodeAttrs p.1) (g2.nodeAttrs p.2) attributes = true ∧
       (g1.neighbors p.1 = [] ∨
         (∃ n ∈ g1.neighbors p.1, plookup n (dictOf clique) = none) ∨
         (∃ n ∈ g1.neighbors p.1, ∃ img,
           plookup n (dictOf clique) = some img ∧ img ∈ g2.neighbors p.2)) ∧
       p ∉ clique) := by
  rw [mcsLeafCond]
  simp only [Bool.and_eq_true, Bool.or_eq_true, decide_eq_true_eq,
    List.isEmpty_iff, List.map_eq_nil_iff, List.any_eq_true, List.mem_map,
    Bool.not_eq_true', decide_eq_false_iff_not]
  constructor
  · rintro ⟨⟨⟨hdeg, hattr⟩, hnbr⟩, hnot⟩
    refine ⟨hdeg, hattr, ?_, hnot⟩
    rcases hnbr with ((h | h) | h)
    · exact Or.inl h
    · obtain ⟨n, hn, hno⟩ := h
      exact Or.inr (Or.inl ⟨n, hn, hno⟩)
    · obtain ⟨n2, hn2, n, hn, himg⟩ := h
      exact Or.inr (Or.inr ⟨n, hn, n2, himg, hn2⟩)
  · rintro ⟨hdeg, hattr, hnbr, hnot⟩
    refine ⟨⟨⟨hdeg, hattr⟩, ?_⟩, hnot⟩
    rcases hnbr with h | ⟨n, hn, hno⟩ | ⟨n, hn, img, himg, hmem⟩
    · exact Or.inl (Or.inl h)
    · exact Or.inl (Or.inr ⟨n, hn, hno⟩)
    · exact Or.inr ⟨img, hmem, n, hn, himg⟩

/-- **C5 (amended)**: the nodes of the per-candidate second-phase product
graph are the seed clique's nodes plus exactly the pairs, not already in
the clique, in which one node has degree at most 1, the attributes agree,
and the `graph1` node either has no neighbour at all, or has a neighbour
missing from the seed mapping, or has a neighbour whose image under the
seed mapping is a `graph2`-neighbour of the other node; the edges follow
the same adjacency-XNOR and component-distinctness rule as the first
phase.  (The claim's original neighbour condition omits the
unmapped-neighbour disjunct; see the counterexample.) -/
theorem claim_C5_amended_leaf_product (g1 : Graph α) (g2 : Graph β)
    (attributes : List String) (clique : List (α × β)) :
    (∀ p : α × β, p ∈ nodeIds (mcsLeafProduct g1 g2 attributes clique) ↔
       (p ∈ clique ∨
         (p.1 ∈ nodeIds g1 ∧ p.2 ∈ nodeIds g2 ∧
           (g1.degree p.1 ≤ 1 ∨ g2.degree p.2 ≤ 1) ∧
           attrsMatch (g1.nodeAttrs p.1) (g2.nodeAttrs p.2) attributes = true ∧
           (g1.neighbors p.1 = [] ∨
             (∃ n ∈ g1.neighbors p.1, plookup n (dictOf clique) = none) ∨
             (∃ n ∈ g1.neighbors p.1, ∃ img,
               plookup n (dictOf clique) = some img ∧
                 img ∈ g2.neighbors p.2)) ∧
           p ∉ clique))) ∧
    (∀ p q : α × β,
       (mcsLeafProduct g1 g2 attributes clique).hasEdge p q = true ↔
         p ∈ nodeIds (mcsLeafProduct g1 g2 attributes clique) ∧
         q ∈ nodeIds (mcsLeafProduct g1 g2 attributes clique) ∧
         p.1 ≠ q.1 ∧ p.2 ≠ q.2 ∧
         (g1.hasEdge p.1 q.1 = true ↔ g2.hasEdge p.2 q.2 = true)) := by
  constructor
  · intro p
    rw [nodeIds_leaf, List.mem_append, List.mem_filter, mcsLeafCond_iff]
    constructor
    · rintro (h | ⟨hprod, hcond⟩)
      · exact Or.inl h
      · obtain ⟨h1, h2⟩ := List.pair_mem_product.mp
          (by rw [show (p.1, p.2) = p from rfl]; exact hprod)
        exact Or.inr ⟨h1, h2, hcond⟩
    · rintro (h | ⟨h1, h2, hcond⟩)
      · exact Or.inl h
      · refine Or.inr ⟨?_, hcond⟩
        rw [show p = (p.1, p.2) from rfl]
        exact List.pair_mem_product.mpr ⟨h1, h2⟩
  · intro p q
    have hx := hasEdge_xnor g1 g2
      (clique ++ ((nodeIds g1).product (nodeIds g2)).filter
        (mcsLeafCond g1 g2 attributes clique))
      (mcsLeafProduct g1 g2 attributes clique).nodes
      false p q
    rw [show (Graph.mk (mcsLeafProduct g1 g2 attributes clique).nodes
        (xnorEdges g1 g2 (clique ++ ((nodeIds g1).product
          (nodeIds g2)).filter (mcsLeafCond g1 g2 attributes clique)) false)) =
        mcsLeafProduct g1 g2 attributes clique from rfl] at hx
    rw [hx, nodeIds_leaf]
    have hcond : productEdgeCond g1 g2 p q = true ↔
        p.1 ≠ q.1 ∧ p.2 ≠ q.2 ∧
          (g1.hasEdge p.1 q.1 = true ↔ g2.hasEdge p.2 q.2 = true) := by
      simp only [productEdgeCond, decide_eq_true_eq]
      rw [Bool.eq_iff_iff]
    rw [hcond]

/-- **C5 (counterexample)**: at the concrete two-edge graphs `exG1`,
`exG2` and the empty seed clique, the pair `(1, 10)` is a node of the
second-phase product graph even though it fails the claim's stated
neighbour condition (its only `graph1`-neighbour is unmapped and the
`graph2` side has a neighbour), so the claim's node characterization is
false as stated. -/
theorem claim_C5_counterexample :
    ¬ (∀ p : Nat × Nat,
        p ∈ nodeIds (mcsLeafProduct exG1 exG2 [] []) ↔
          (p ∈ ([] : List (Nat × Nat)) ∨
            (p.1 ∈ nodeIds exG1 ∧ p.2 ∈ nodeIds exG2 ∧
              specLeafNodeCond exG1 exG2 [] [] p = true))) := by
  intro h
  exact absurd ((h (1, 10)).mp (by decide)) (by decide)

/-! ## The hydrogen-aware isomorphism search (C6, C7) -/

theorem mem_allAssignments {refs : List α} {res : List β}
    {m : List (α × β)} (h : m ∈ allAssignments refs res) :
    m.map Prod.snd = res ∧ ∀ p ∈ m, p.1 ∈ refs := by
  induction res generalizing m with
  | nil =>
    simp only [allAssignments, List.mem_singleton] at h
    subst h
    simp
  | cons r rs ih =>
    simp only [allAssignments, List.mem_flatMap, List.mem_map] at h
    obtain ⟨c, hc, mm, hmm, rfl⟩ := h
    obtain ⟨hsnd, hfst⟩ := ih hmm
    refine ⟨by simp [hsnd], fun p hp => ?_⟩
    rcases List.mem_cons.mp hp with rfl | hp2
    · exact hc
    · exact hfst p hp2

theorem allAssignments_complete {refs : List α} {res : List β}
    {m : List (α × β)} (hsnd : m.map Prod.snd = res)
    (hfst : ∀ p ∈ m, p.1 ∈ refs) : m ∈ allAssignments refs res := by
  induction res generalizing m with
  | nil =>
    rw [List.map_eq_nil_iff] at hsnd
    subst hsnd
    simp [allAssignments]
  | cons r rs ih =>
    cases m with
    | nil => simp at hsnd
    | cons p mm =>
      simp only [List.map_cons, List.cons.injEq] at hsnd
      obtain ⟨hp2, hmm⟩ := hsnd
      simp only [allAssignments, List.mem_flatMap, List.mem_map]
      refine ⟨p.1, hfst p (List.mem_cons_self _ _), mm,
        ih hmm (fun q hq => hfst q (List.mem_cons_of_mem _ hq)), ?_⟩
      rw [show (p.1, r) = p from by rw [← hp2]]

theorem extendLeafStep_append (reference residue : Graph α)
    (st : List (α × α) × List (α × α)) (h : α) :
    ∃ r1 r2, extendLeafStep reference residue st h =
      (st.1 ++ r1, st.2 ++ r2) := by
  rw [extendLeafStep]
  split
  · exact ⟨[], [], by simp⟩
  · split
    · exact ⟨[], [], by simp⟩
    · dsimp only
      split
      · split
        · exact ⟨_, _, rfl⟩
        · exact ⟨[], [], by simp⟩
      · exact ⟨[], [], by simp⟩

theorem extendLeaves_append (reference residue : Graph α) (hIdxs : List α)
    (hm : List (α × α)) :
    ∃ r1 r2, extendLeaves reference residue hIdxs hm =
      (hm ++ r1, hm.map (fun p => (p.2, p.1)) ++ r2) := by
  rw [extendLeaves]
  suffices haux : ∀ (l : List α) (st : List (α × α) × List (α × α)),
      ∃ r1 r2, l.foldl (extendLeafStep reference residue) st =
        (st.1 ++ r1, st.2 ++ r2) by
    obtain ⟨r1, r2, heq⟩ := haux hIdxs (hm, hm.map (fun p => (p.2, p.1)))
    exact ⟨r1, r2, heq⟩
  intro l
  induction l with
  | nil => intro st; exact ⟨[], [], by simp⟩
  | cons h2 hs ih =>
    intro st
    simp only [List.foldl_cons]
    obtain ⟨s1, s2, heq⟩ := extendLeafStep_append reference residue st h2
    obtain ⟨r1, r2, heq2⟩ := ih (extendLeafStep reference residue st h2)
    rw [heq2, heq]
    exact ⟨s1 ++ r1, s2 ++ r2, by simp⟩

theorem extendLeaves_nil (reference residue : Graph α) (hIdxs : List α) :
    extendLeaves reference residue hIdxs [] = ([], []) := by
  rw [extendLeaves]
  induction hIdxs with
  | nil => rfl
  | cons h hs ih =>
    simp only [List.foldl_cons, List.map_nil]
    rw [show extendLeafStep reference residue ([], []) h = ([], []) from ?_]
    · simpa using ih
    · rw [extendLeafStep]
      split
      · rfl
      · simp [plookup]

/-- **C6**: `isomorphism` collects, per heavy embedding, the seeded
re-search completions: exactly the first discovered completion when the
leaf-extended seed is non-empty (`itertools.islice(outcome, 1)`), and all
completions when the seed is empty; for heavy embeddings the seed is
empty exactly when the residue has no heavy atoms.  The final result is a
permutation (the best-first reordering) of these contributions. -/
theorem claim_C6_first_completion (reference residue : Graph α) :
    (List.Perm (isomorphism reference residue)
      ((subIsoList reference (heavyGraph residue)).flatMap
        (isoContribution reference residue))) ∧
    (∀ hm : List (α × α),
      ((extendLeaves reference residue (leafIdxs residue) hm).1 ≠ [] →
        isoContribution reference residue hm =
          (completionsFrom reference residue
            (extendLeaves reference residue (leafIdxs residue) hm).1).take 1 ∧
        (isoContribution reference residue hm).length ≤ 1) ∧
      ((extendLeaves reference residue (leafIdxs residue) hm).1 = [] →
        isoContribution reference residue hm =
          completionsFrom reference residue
            (extendLeaves reference residue (leafIdxs residue) hm).1)) ∧
    (∀ hm ∈ subIsoList reference (heavyGraph residue),
      ((extendLeaves reference residue (leafIdxs residue) hm).1 = [] ↔
        nodeIds (heavyGraph residue) = [])) := by
  refine ⟨sortDesc_perm _ _, fun hm => ⟨fun hne => ?_, fun hnil => ?_⟩,
    fun hm hmem => ⟨fun hnil => ?_, fun hnil => ?_⟩⟩
  · rw [isoContribution]
    rw [if_neg (by simpa [List.isEmpty_iff] using hne)]
    exact ⟨rfl, by simpa using List.length_take_le 1 _⟩
  · rw [isoContribution, if_pos (by simpa [List.isEmpty_iff] using hnil)]
  · obtain ⟨r1, r2, heq⟩ :=
      extendLeaves_append reference residue (leafIdxs residue) hm
    rw [heq] at hnil
    have hhm : hm = [] := by
      cases hp : hm with
      | nil => rfl
      | cons a l => rw [hp] at hnil; simp at hnil
    have hsnd := (mem_allAssignments (List.mem_filter.mp hmem).1).1
    rw [hhm] at hsnd
    exact hsnd.symm
  · have hsnd := (mem_allAssignments (List.mem_filter.mp hmem).1).1
    have hhm : hm = [] := by
      rw [hnil] at hsnd
      exact List.map_eq_nil_iff.mp hsnd
    rw [hhm, extendLeaves_nil]

/-- Case analysis of one hydrogen-extension pass: either every
admission condition holds and exactly one identity-shaped pair is
appended, or the state is returned unchanged. -/
theorem extendLeafStep_cases (reference residue : Graph α)
    (st : List (α × α) × List (α × α)) (resH : α) :
    (∃ resNbr refNbr refH,
      (residue.neighbors resH).head? = some resNbr ∧
      plookup resNbr st.2 = some refNbr ∧
      (reference.neighbors refNbr).filter (fun i =>
        reference.degree i = 1 &&
          reference.nodeAttr i "atomname" = residue.nodeAttr resH "atomname")
        = [refH] ∧
      refH ∉ st.1.map Prod.fst ∧
      reference.nodeAttr refH "element" = residue.nodeAttr resH "element" ∧
      extendLeafStep reference residue st resH =
        (st.1 ++ [(refH, resH)], st.2 ++ [(resH, refH)])) ∨
    extendLeafStep reference residue st resH = st := by
  rw [extendLeafStep]
  split
  · exact Or.inr rfl
  · rename_i resNbr h1
    split
    · exact Or.inr rfl
    · rename_i refNbr h2
      dsimp only
      split
      · rename_i refH h3
        split
        · rename_i h4
          rw [Bool.and_eq_true, Bool.not_eq_true', decide_eq_false_iff_not,
            decide_eq_true_eq] at h4
          exact Or.inl ⟨resNbr, refNbr, refH, h1, h2, h3, h4.1, h4.2, rfl⟩
        · exact Or.inr rfl
      · exact Or.inr rfl

/-- **C7**: one pass of the hydrogen-extension loop adds the residue leaf
node to the match only when its unique neighbour is already mapped, the
reference image of that neighbour has exactly one degree-1 neighbour
carrying the leaf's atom name, that reference node is not already a key
of the match, and the elements agree — in which case exactly the pair
(reference node, leaf) is appended; in every other case the pair
(match, reverse match) is returned unchanged, with no failure. -/
theorem claim_C7_leaf_step (reference residue : Graph α)
    (st : List (α × α) × List (α × α)) (resH : α) :
    (∃ resNbr refNbr refH,
      (residue.neighbors resH).head? = some resNbr ∧
      plookup resNbr st.2 = some refNbr ∧
      (reference.neighbors refNbr).filter (fun i =>
        reference.degree i = 1 &&
          reference.nodeAttr i "atomname" = residue.nodeAttr resH "atomname")
        = [refH] ∧
      refH ∉ st.1.map Prod.fst ∧
      reference.nodeAttr refH "element" = residue.nodeAttr resH "element" ∧
      extendLeafStep reference residue st resH =
        (st.1 ++ [(refH, resH)], st.2 ++ [(resH, refH)])) ∨
    extendLeafStep reference residue st resH = st :=
  extendLeafStep_cases reference residue st resH

/-! ## Self-match of a graph (C8) -/

theorem mem_leafIdxs {residue : Graph α} {i : α} :
    i ∈ leafIdxs residue ↔ i ∈ nodeIds residue ∧ residue.degree i = 1 := by
  rw [leafIdxs, List.mem_filter]
  simp

theorem mem_nodeIds_heavyGraph {A : Graph α} {h : α} :
    h ∈ nodeIds (heavyGraph A) ↔ h ∈ nodeIds A ∧ h ∉ leafIdxs A := by
  simp only [heavyGraph, nodeIds, List.mem_map, List.mem_filter]
  constructor
  · rintro ⟨p, ⟨hp, hpred⟩, rfl⟩
    exact ⟨⟨p, hp, rfl⟩, by simpa using hpred⟩
  · rintro ⟨⟨p, hp, rfl⟩, hnot⟩
    exact ⟨p, ⟨hp, by simpa using hnot⟩, rfl⟩

theorem nodeIds_heavyGraph_sublist (A : Graph α) :
    List.Sublist (nodeIds (heavyGraph A)) (nodeIds A) :=
  List.Sublist.map Prod.fst (List.filter_sublist A.nodes)

theorem hasEdge_heavyGraph {A : Graph α} {h1 h2 : α}
    (hh1 : h1 ∉ leafIdxs A) (hh2 : h2 ∉ leafIdxs A) :
    (heavyGraph A).hasEdge h1 h2 = A.hasEdge h1 h2 := by
  rw [Bool.eq_iff_iff]
  simp only [Graph.hasEdge, heavyGraph, List.any_eq_true, decide_eq_true_eq,
    List.mem_filter]
  constructor
  · rintro ⟨e, ⟨he, -⟩, hor⟩
    exact ⟨e, he, hor⟩
  · rintro ⟨e, he, hor⟩
    refine ⟨e, ⟨he, ?_⟩, hor⟩
    rcases hor with ⟨ha, hb⟩ | ⟨ha, hb⟩ <;>
      simp [ha, hb, hh1, hh2]

theorem mem_neighbors_symm {g : Graph α} {a b : α}
    (h : a ∈ g.neighbors b) : b ∈ g.neighbors a := by
  simp only [Graph.neighbors, List.mem_filterMap] at h ⊢
  obtain ⟨e, he, hif⟩ := h
  refine ⟨e, he, ?_⟩
  by_cases h1 : e.1 = b
  · rw [if_pos h1, Option.some.injEq] at hif
    by_cases h2 : e.1 = a
    · rw [if_pos h2, Option.some.injEq, hif, ← h2]
      exact h1
    · rw [if_neg h2, if_pos hif, h1]
  · rw [if_neg h1] at hif
    by_cases h2 : e.2.1 = b
    · rw [if_pos h2, Option.some.injEq] at hif
      rw [if_pos hif, h2]
    · rw [if_neg h2] at hif
      exact absurd hif (by simp)

theorem pairsOf_map {γ δ : Type} (f : γ → δ) (l : List γ) :
    pairsOf (l.map f) = (pairsOf l).map (fun pq => (f pq.1, f pq.2)) := by
  induction l with
  | nil => simp [pairsOf]
  | cons x xs ih => simp [pairsOf, ih, List.map_map]

theorem map_fst_eq_map_snd_of_id {l : List (α × α)}
    (h : ∀ p ∈ l, p.2 = p.1) : l.map Prod.fst = l.map Prod.snd := by
  induction l with
  | nil => rfl
  | cons p rest ih =>
    simp only [List.map_cons]
    rw [h p (List.mem_cons_self _ _), ih (fun q hq => h q (List.mem_cons_of_mem _ hq))]

theorem isValidIso_of_id {A : Graph α} {m : List (α × α)}
    (hid : ∀ p ∈ m, p.2 = p.1) (hnd : (m.map Prod.snd).Nodup) :
    isValidIso A A m = true := by
  rw [isValidIso, Bool.and_eq_true, Bool.and_eq_true, Bool.and_eq_true]
  refine ⟨⟨⟨?_, by simpa using hnd⟩, ?_⟩, ?_⟩
  · rw [show ((m.map Prod.fst).Nodup : Bool) = ((m.map Prod.snd).Nodup : Bool)
      from by rw [map_fst_eq_map_snd_of_id hid]]
    simpa using hnd
  · rw [List.all_eq_true]
    intro pq hpq
    have h1 := hid pq.1 (mem_pairsOf hpq).1
    have h2 := hid pq.2 (mem_pairsOf hpq).2
    simp [h1, h2]
  · rw [List.all_eq_true]
    intro p hp
    simp [hid p hp]

theorem extendLeafStep_id (A : Graph α) (st : List (α × α) × List (α × α))
    (resH : α) (hres : resH ∈ leafIdxs A)
    (h1 : ∀ p ∈ st.1, p.2 = p.1)
    (h2 : st.2 = st.1.map (fun p => (p.2, p.1)))
    (h3 : (st.1.map Prod.snd).Nodup)
    (h4 : ∀ v ∈ st.1.map Prod.snd, v ∈ nodeIds A) :
    (∀ p ∈ (extendLeafStep A A st resH).1, p.2 = p.1) ∧
    (extendLeafStep A A st resH).2 =
      (extendLeafStep A A st resH).1.map (fun p => (p.2, p.1)) ∧
    ((extendLeafStep A A st resH).1.map Prod.snd).Nodup ∧
    (∀ v ∈ (extendLeafStep A A st resH).1.map Prod.snd, v ∈ nodeIds A) := by
  rcases extendLeafStep_cases A A st resH with
    ⟨resNbr, refNbr, refH, hh1, hh2, hh3, hh4, hh5, heq⟩ | heq
  · have hrefNbr : refNbr = resNbr := by
      have hmem := plookup_mem hh2
      rw [h2] at hmem
      obtain ⟨p, hp, hpe⟩ := List.mem_map.mp hmem
      have hpid := h1 p hp
      have e1 : p.2 = resNbr := congrArg Prod.fst hpe
      have e2 : p.1 = refNbr := congrArg Prod.snd hpe
      rw [← e1, ← e2, hpid]
    have hresNbr_mem : resNbr ∈ A.neighbors resH :=
      List.mem_of_mem_head? (Option.mem_def.mpr hh1)
    have hresH_cand : resH ∈ (A.neighbors refNbr).filter (fun i =>
        A.degree i = 1 &&
          A.nodeAttr i "atomname" = A.nodeAttr resH "atomname") := by
      rw [List.mem_filter]
      refine ⟨by rw [hrefNbr]; exact mem_neighbors_symm hresNbr_mem, ?_⟩
      have hdeg := (mem_leafIdxs.mp hres).2
      simp [hdeg]
    rw [hh3] at hresH_cand
    have hrefH : refH = resH := (List.mem_singleton.mp hresH_cand).symm
    rw [hrefH] at heq hh4
    rw [heq]
    have hvals : resH ∉ st.1.map Prod.snd := by
      rw [← map_fst_eq_map_snd_of_id h1]
      exact hh4
    refine ⟨?_, ?_, ?_, ?_⟩
    · intro p hp
      rcases List.mem_append.mp hp with h | h
      · exact h1 p h
      · rw [List.mem_singleton.mp h]
    · rw [h2]
      simp
    · rw [List.map_append]
      rw [List.nodup_append]
      exact ⟨h3, by simp, by
        intro a ha hb
        simp only [List.map_cons, List.map_nil, List.mem_singleton] at hb
        exact hvals (hb ▸ ha)⟩
    · intro v hv
      rw [List.map_append, List.mem_append] at hv
      rcases hv with h | h
      · exact h4 v h
      · simp only [List.map_cons, List.map_nil, List.mem_singleton] at h
        exact h ▸ (mem_leafIdxs.mp hres).1
  · rw [heq]
    exact ⟨h1, h2, h3, h4⟩

theorem extendLeaves_id_invariant (A : Graph α) :
    ∀ (hIdxs : List α), (∀ i ∈ hIdxs, i ∈ leafIdxs A) →
    ∀ (st : List (α × α) × List (α × α)),
      (∀ p ∈ st.1, p.2 = p.1) →
      st.2 = st.1.map (fun p => (p.2, p.1)) →
      (st.1.map Prod.snd).Nodup →
      (∀ v ∈ st.1.map Prod.snd, v ∈ nodeIds A) →
      (∀ p ∈ (hIdxs.foldl (extendLeafStep A A) st).1, p.2 = p.1) ∧
        ((hIdxs.foldl (extendLeafStep A A) st).1.map Prod.snd).Nodup ∧
        (∀ v ∈ (hIdxs.foldl (extendLeafStep A A) st).1.map Prod.snd,
          v ∈ nodeIds A) := by
  intro hIdxs
  induction hIdxs with
  | nil => intro _ st h1 h2 h3 h4; exact ⟨h1, h3, h4⟩
  | cons resH rest ih =>
    intro hsub st h1 h2 h3 h4
    simp only [List.foldl_cons]
    obtain ⟨k1, k2, k3, k4⟩ := extendLeafStep_id A st resH
      (hsub resH (List.mem_cons_self _ _)) h1 h2 h3 h4
    exact ih (fun i hi => hsub i (List.mem_cons_of_mem _ hi)) _ k1 k2 k3 k4

theorem nodeAttrs_heavyGraph {A : Graph α} {h : α} (hh : h ∉ leafIdxs A) :
    (heavyGraph A).nodeAttrs h = A.nodeAttrs h := by
  rw [Graph.nodeAttrs, Graph.nodeAttrs]
  show ((((A.nodes.filter (fun p => !(p.1 ∈ leafIdxs A))).find?
    (fun p => p.1 = h)).map Prod.snd).getD []) = _
  induction A.nodes with
  | nil => rfl
  | cons p rest ih =>
    by_cases hp : p.1 = h
    · have hpred : (!(p.1 ∈ leafIdxs A)) = true := by
        rw [hp]; simpa using hh
      rw [List.filter_cons, if_pos hpred]
      rw [List.find?_cons_of_pos _ (by simpa using hp),
        List.find?_cons_of_pos _ (by simpa using hp)]
    · by_cases hpred : (!(p.1 ∈ leafIdxs A)) = true
      · rw [List.filter_cons, if_pos hpred]
        rw [List.find?_cons_of_neg _ (by simpa using hp),
          List.find?_cons_of_neg _ (by simpa using hp)]
        exact ih
      · rw [List.filter_cons, if_neg hpred]
        rw [List.find?_cons_of_neg _ (by simpa using hp)]
        exact ih

theorem idHeavy_valid {A : Graph α} (hnd : (nodeIds A).Nodup) :
    ((nodeIds (heavyGraph A)).map (fun h => (h, h))) ∈
      subIsoList A (heavyGraph A) := by
  have hheavy_nodup : (nodeIds (heavyGraph A)).Nodup :=
    List.Nodup.sublist (nodeIds_heavyGraph_sublist A) hnd
  have hsnd : ((nodeIds (heavyGraph A)).map (fun h => (h, h))).map Prod.snd =
      nodeIds (heavyGraph A) := by
    rw [List.map_map]
    exact List.map_id _
  have hfst : ((nodeIds (heavyGraph A)).map (fun h => (h, h))).map Prod.fst =
      nodeIds (heavyGraph A) := by
    rw [List.map_map]
    exact List.map_id _
  rw [subIsoList, List.mem_filter]
  constructor
  · refine allAssignments_complete hsnd ?_
    intro p hp
    obtain ⟨h, hh, rfl⟩ := List.mem_map.mp hp
    exact (nodeIds_heavyGraph_sublist A).subset hh
  · rw [isValidIso, Bool.and_eq_true, Bool.and_eq_true, Bool.and_eq_true]
    refine ⟨⟨⟨by rw [hfst]; simpa using hheavy_nodup,
      by rw [hsnd]; simpa using hheavy_nodup⟩, ?_⟩, ?_⟩
    · rw [List.all_eq_true]
      intro pq hpq
      rw [pairsOf_map] at hpq
      obtain ⟨hh, hhmem, rfl⟩ := List.mem_map.mp hpq
      have h1 := (mem_pairsOf hhmem).1
      have h2 := (mem_pairsOf hhmem).2
      have hl1 := (mem_nodeIds_heavyGraph.mp h1).2
      have hl2 := (mem_nodeIds_heavyGraph.mp h2).2
      simp only
      rw [hasEdge_heavyGraph hl1 hl2]
      simp
    · rw [List.all_eq_true]
      intro p hp
      obtain ⟨h, hh, rfl⟩ := List.mem_map.mp hp
      have hl := (mem_nodeIds_heavyGraph.mp hh).2
      simp [Graph.nodeAttr, nodeAttrs_heavyGraph hl]

/-- **C8 (amended)**: for a graph `A` with distinct node identifiers, the
self-match `isomorphism A A` contains at least one Match that includes
the identity on every heavy atom (degree ≠ 1), and every mapped pair of
every returned Match has equal `element` attributes.  (The original
claim, that *every* Match includes the heavy identity, fails on symmetric
graphs; see the counterexample.) -/
theorem claim_C8_amended_self_match (A : Graph α)
    (hnd : (nodeIds A).Nodup) :
    (∃ m ∈ isomorphism A A,
      ∀ h ∈ nodeIds A, A.degree h ≠ 1 → (h, h) ∈ m) ∧
    (∀ m ∈ isomorphism A A, ∀ p ∈ m,
      A.nodeAttr p.1 "element" = A.nodeAttr p.2 "element") := by
  constructor
  · -- the identity heavy embedding survives into the result
    obtain ⟨r1, r2, heqEm⟩ := extendLeaves_append A A (leafIdxs A)
      ((nodeIds (heavyGraph A)).map (fun h => (h, h)))
    set idH := (nodeIds (heavyGraph A)).map (fun h => (h, h)) with hidH
    set em := (extendLeaves A A (leafIdxs A) idH).1 with hem
    have hheavy_nodup : (nodeIds (heavyGraph A)).Nodup :=
      List.Nodup.sublist (nodeIds_heavyGraph_sublist A) hnd
    have hsnd : idH.map Prod.snd = nodeIds (heavyGraph A) := by
      rw [hidH, List.map_map]
      exact List.map_id _
    have hinv := extendLeaves_id_invariant A (leafIdxs A) (fun i hi => hi)
      (idH, idH.map (fun p => (p.2, p.1)))
      (fun p hp => by obtain ⟨h, -, rfl⟩ := List.mem_map.mp hp; rfl)
      rfl
      (by rw [hsnd]; exact hheavy_nodup)
      (by rw [hsnd]; exact fun v hv => (nodeIds_heavyGraph_sublist A).subset hv)
    rw [show (leafIdxs A).foldl (extendLeafStep A A)
        (idH, idH.map (fun p => (p.2, p.1))) =
        extendLeaves A A (leafIdxs A) idH from rfl] at hinv
    obtain ⟨hemid, hemnd, hemsub⟩ := hinv
    -- the identity completion shows the seeded search succeeds
    have hmfull : (em ++ ((nodeIds A).filter
        (fun r => !(r ∈ em.map Prod.snd))).map (fun r => (r, r))) ∈
        completionsFrom A A em := by
      rw [completionsFrom, List.mem_filter]
      constructor
      · refine List.mem_map_of_mem _ (allAssignments_complete ?_ ?_)
        · rw [List.map_map]
          exact List.map_id _
        · intro p hp
          obtain ⟨r, hr, rfl⟩ := List.mem_map.mp hp
          exact (List.mem_filter.mp hr).1
      · refine isValidIso_of_id ?_ ?_
        · intro p hp
          rcases List.mem_append.mp hp with h | h
          · exact hemid p h
          · obtain ⟨r, -, rfl⟩ := List.mem_map.mp h
            rfl
        · rw [List.map_append, List.map_map]
          rw [show (Prod.snd ∘ fun r : α => (r, r)) = id from rfl, List.map_id]
          rw [List.nodup_append]
          refine ⟨hemnd, List.Nodup.filter _ hnd, ?_⟩
          intro a ha hb
          have := (List.mem_filter.mp hb).2
          simp only [Bool.not_eq_true', decide_eq_false_iff_not] at this
          exact this ha
    have hcompne : completionsFrom A A em ≠ [] :=
      fun hcon => by rw [hcon] at hmfull; exact absurd hmfull (by simp)
    have hex : ∃ x ∈ isoContribution A A idH, ∃ rest2, x = em ++ rest2 := by
      rw [isoContribution]
      by_cases hempty : em.isEmpty = true
      · rw [if_pos hempty]
        exact ⟨_, hmfull, _, rfl⟩
      · rw [if_neg hempty]
        obtain ⟨y, t, hyt⟩ := List.exists_cons_of_ne_nil hcompne
        refine ⟨y, by rw [hyt]; simp, ?_⟩
        have hy : y ∈ completionsFrom A A em := by rw [hyt]; simp
        obtain ⟨-, rest2, hrest2⟩ := mem_completionsFrom hy
        exact ⟨rest2, hrest2⟩
    obtain ⟨x, hx, rest2, hxeq⟩ := hex
    refine ⟨x, ?_, ?_⟩
    · rw [isomorphism]
      refine (sortDesc_perm _ _).mem_iff.mpr ?_
      exact List.mem_flatMap.mpr ⟨idH, idHeavy_valid hnd, hx⟩
    · intro h hh hdeg
      have hheavy : h ∈ nodeIds (heavyGraph A) :=
        mem_nodeIds_heavyGraph.mpr ⟨hh, fun hleaf =>
          hdeg (mem_leafIdxs.mp hleaf).2⟩
      have hidmem : (h, h) ∈ idH := List.mem_map_of_mem _ hheavy
      have hemEq : em = idH ++ r1 := by rw [hem, heqEm]
      rw [hxeq, hemEq]
      exact List.mem_append_left _ (List.mem_append_left _ hidmem)
  · intro m hm p hp
    obtain ⟨hm2, -, hcontrib⟩ := mem_isomorphism hm
    exact (isValidIso_parts
      (mem_completionsFrom (mem_isoContribution hcontrib)).1).2.2.2 p hp

/-- **C8 (counterexample)**: on the symmetric triangle `exTri` (all
elements equal, every node heavy), the self-match returns non-identity
automorphisms, e.g. the Match swapping nodes 0 and 1, which does not
include the identity pair `(0, 0)`; so "every Match includes the identity
on heavy atoms" is false as stated. -/
theorem claim_C8_counterexample :
    ¬ (∀ m ∈ isomorphism exTri exTri,
        ∀ h ∈ nodeIds exTri, exTri.degree h ≠ 1 → (h, h) ∈ m) := by
  intro hclaim
  exact absurd (hclaim [(1, 0), (0, 1), (2, 2)] (by decide) 0 (by decide)
    (by decide)) (by decide)

/-- Witness for the amended C8 at the concrete triangle: the hypotheses
hold and the self-match contains a Match including the heavy identity. -/
theorem claim_C8_witness :
    (nodeIds exTri).Nodup ∧
    (∃ m ∈ isomorphism exTri exTri,
      ∀ h ∈ nodeIds exTri, exTri.degree h ≠ 1 → (h, h) ∈ m) :=
  ⟨by decide, (claim_C8_amended_self_match exTri (by decide)).1⟩

/-! ## The quotient graph (C9) -/

theorem sameEdgeKey_symm {p q : Nat × Nat} (h : sameEdgeKey p q = true) :
    sameEdgeKey q p = true := by
  obtain ⟨p1, p2⟩ := p
  obtain ⟨q1, q2⟩ := q
  simp only [sameEdgeKey, decide_eq_true_eq] at h ⊢
  omega

theorem sameEdgeKey_trans {p q r : Nat × Nat} (h1 : sameEdgeKey p q = true)
    (h2 : sameEdgeKey q r = true) : sameEdgeKey p r = true := by
  obtain ⟨p1, p2⟩ := p
  obtain ⟨q1, q2⟩ := q
  obtain ⟨r1, r2⟩ := r
  simp only [sameEdgeKey, decide_eq_true_eq] at h1 h2 ⊢
  omega

theorem sumWeights_cons (e : (Nat × Nat) × Rat) (es : List ((Nat × Nat) × Rat))
    (i j : Nat) :
    sumWeights (e :: es) i j =
      (if sameEdgeKey e.1 (i, j) then e.2 else 0) + sumWeights es i j := by
  rw [sumWeights, sumWeights, List.filter_cons]
  by_cases h : sameEdgeKey e.1 (i, j) = true
  · simp [h]
  · simp [h]

theorem sum_update_matched (es : List ((Nat × Nat) × Rat)) (i0 j0 i j : Nat)
    (w : Rat)
    (hpw : es.Pairwise (fun e1 e2 => ¬ sameEdgeKey e1.1 e2.1 = true))
    (hmatch : sameEdgeKey (i0, j0) (i, j) = true)
    (hany : es.any (fun e => sameEdgeKey e.1 (i0, j0)) = true) :
    sumWeights (es.map (fun e =>
      if sameEdgeKey e.1 (i0, j0) then (e.1, e.2 + w) else e)) i j =
      sumWeights es i j + w := by
  induction es with
  | nil => simp at hany
  | cons e rest ih =>
    obtain ⟨he, hrest⟩ := List.pairwise_cons.mp hpw
    rw [List.map_cons]
    by_cases h0 : sameEdgeKey e.1 (i0, j0) = true
    · have hpt : ∀ e2 ∈ rest, (if sameEdgeKey e2.1 (i0, j0) = true then
          (e2.1, e2.2 + w) else e2) = e2 := fun e2 he2 => by
        rw [if_neg (fun hcon =>
          he e2 he2 (sameEdgeKey_trans h0 (sameEdgeKey_symm hcon)))]
      have hrestid : rest.map (fun e2 => if sameEdgeKey e2.1 (i0, j0) then
          (e2.1, e2.2 + w) else e2) = rest :=
        (List.map_congr_left hpt).trans (List.map_id rest)
      rw [if_pos h0, hrestid]
      have hek := sameEdgeKey_trans h0 hmatch
      rw [sumWeights_cons, sumWeights_cons]
      simp only [hek, if_true]
      ring
    · have hany2 : rest.any (fun e2 => sameEdgeKey e2.1 (i0, j0)) = true := by
        simpa [h0] using hany
      rw [if_neg h0, sumWeights_cons, sumWeights_cons, ih hrest hany2]
      ring

theorem sum_update_unmatched (es : List ((Nat × Nat) × Rat)) (i0 j0 i j : Nat)
    (w : Rat) (hm : ¬ sameEdgeKey (i0, j0) (i, j) = true) :
    sumWeights (es.map (fun e =>
      if sameEdgeKey e.1 (i0, j0) then (e.1, e.2 + w) else e)) i j =
      sumWeights es i j := by
  induction es with
  | nil => rfl
  | cons e rest ih =>
    rw [List.map_cons, sumWeights_cons, sumWeights_cons, ih]
    congr 1
    by_cases h0 : sameEdgeKey e.1 (i0, j0) = true
    · rw [if_pos h0]
      by_cases hek : sameEdgeKey e.1 (i, j) = true
      · exact absurd (sameEdgeKey_trans (sameEdgeKey_symm h0) hek) hm
      · simp [hek]
    · rw [if_neg h0]

theorem sumWeights_append (es1 es2 : List ((Nat × Nat) × Rat)) (i j : Nat) :
    sumWeights (es1 ++ es2) i j = sumWeights es1 i j + sumWeights es2 i j := by
  rw [sumWeights, sumWeights, sumWeights, List.filter_append, List.map_append,
    List.sum_append]

theorem addWeight_facts (es : List ((Nat × Nat) × Rat)) (i0 j0 : Nat) (w : Rat)
    (hne : i0 ≠ j0)
    (hself : ∀ e ∈ es, e.1.1 ≠ e.1.2)
    (hpw : es.Pairwise (fun e1 e2 => ¬ sameEdgeKey e1.1 e2.1 = true)) :
    (∀ e ∈ addWeight es i0 j0 w, e.1.1 ≠ e.1.2) ∧
    ((addWeight es i0 j0 w).Pairwise
      (fun e1 e2 => ¬ sameEdgeKey e1.1 e2.1 = true)) ∧
    (∀ i j, sumWeights (addWeight es i0 j0 w) i j =
      sumWeights es i j + (if sameEdgeKey (i0, j0) (i, j) then w else 0)) := by
  have hkey : ∀ e0 : (Nat × Nat) × Rat,
      ((if sameEdgeKey e0.1 (i0, j0) then (e0.1, e0.2 + w) else e0)).1 = e0.1 :=
    fun e0 => by by_cases h : sameEdgeKey e0.1 (i0, j0) = true <;> simp [h]
  rw [addWeight]
  by_cases hany : es.any (fun e => sameEdgeKey e.1 (i0, j0)) = true
  · rw [if_pos hany]
    refine ⟨?_, ?_, ?_⟩
    · intro e he
      obtain ⟨e0, he0, rfl⟩ := List.mem_map.mp he
      rw [show ((if sameEdgeKey e0.1 (i0, j0) then (e0.1, e0.2 + w)
        else e0)).1 = e0.1 from hkey e0]
      exact hself e0 he0
    · rw [List.pairwise_map]
      refine hpw.imp ?_
      intro a b hab
      rw [hkey a, hkey b]
      exact hab
    · intro i j
      by_cases hm : sameEdgeKey (i0, j0) (i, j) = true
      · rw [if_pos hm]
        exact sum_update_matched es i0 j0 i j w hpw hm hany
      · rw [if_neg hm, sum_update_unmatched es i0 j0 i j w hm, add_zero]
  · rw [if_neg hany]
    have hnone : ∀ e ∈ es, ¬ sameEdgeKey e.1 (i0, j0) = true := by
      intro e he hcon
      exact hany (List.any_eq_true.mpr ⟨e, he, hcon⟩)
    refine ⟨?_, ?_, ?_⟩
    · intro e he
      rcases List.mem_append.mp he with h | h
      · exact hself e h
      · rw [List.mem_singleton.mp h]
        exact hne
    · rw [List.pairwise_append]
      refine ⟨hpw, by simp, ?_⟩
      intro a ha b hb
      rw [List.mem_singleton.mp hb]
      exact hnone a ha
    · intro i j
      rw [sumWeights_append, sumWeights_cons]
      have hz : sumWeights [] i j = 0 := rfl
      rw [hz, add_zero]

theorem interBlockWeight_cons (g : Graph Nat) (partitions : List (List Nat))
    (e : Nat × Nat × AttrMap) (l : List (Nat × Nat × AttrMap)) (i j : Nat) :
    interBlockWeight g partitions (e :: l) i j =
      (if ((blockOf g partitions e.1 = some i ∧
            blockOf g partitions e.2.1 = some j) ∨
           (blockOf g partitions e.1 = some j ∧
            blockOf g partitions e.2.1 = some i))
       then edgeWeight e.2.2 else 0) + interBlockWeight g partitions l i j := by
  rw [interBlockWeight, interBlockWeight, List.filter_cons]
  by_cases h : ((blockOf g partitions e.1 = some i ∧
      blockOf g partitions e.2.1 = some j) ∨
    (blockOf g partitions e.1 = some j ∧
      blockOf g partitions e.2.1 = some i))
  · simp [h]
  · simp [h]

theorem blockFold_facts (g : Graph Nat) (partitions : List (List Nat)) :
    ∀ (l : List (Nat × Nat × AttrMap)) (es : List ((Nat × Nat) × Rat)),
      (∀ e ∈ es, e.1.1 ≠ e.1.2) →
      (es.Pairwise (fun e1 e2 => ¬ sameEdgeKey e1.1 e2.1 = true)) →
      (∀ e ∈ l.foldl (fun es e =>
          match blockOf g partitions e.1, blockOf g partitions e.2.1 with
          | some bmu, some bmv =>
              if bmu = bmv then es
              else addWeight es bmu bmv (edgeWeight e.2.2)
          | _, _ => es) es, e.1.1 ≠ e.1.2) ∧
      ((l.foldl (fun es e =>
          match blockOf g partitions e.1, blockOf g partitions e.2.1 with
          | some bmu, some bmv =>
              if bmu = bmv then es
              else addWeight es bmu bmv (edgeWeight e.2.2)
          | _, _ => es) es).Pairwise
        (fun e1 e2 => ¬ sameEdgeKey e1.1 e2.1 = true)) ∧
      (∀ i j, i ≠ j → sumWeights (l.foldl (fun es e =>
          match blockOf g partitions e.1, blockOf g partitions e.2.1 with
          | some bmu, some bmv =>
              if bmu = bmv then es
              else addWeight es bmu bmv (edgeWeight e.2.2)
          | _, _ => es) es) i j =
        sumWeights es i j + interBlockWeight g partitions l i j) := by
  intro l
  induction l with
  | nil =>
    intro es hself hpw
    refine ⟨hself, hpw, fun i j hij => ?_⟩
    rw [show interBlockWeight g partitions [] i j = 0 from rfl, add_zero]
    rfl
  | cons e l2 ih =>
    intro es hself hpw
    simp only [List.foldl_cons]
    cases hbu : blockOf g partitions e.1 with
    | none =>
      simp only [hbu]
      obtain ⟨m1, m2, m3⟩ := ih es hself hpw
      refine ⟨m1, m2, fun i j hij => ?_⟩
      rw [m3 i j hij, interBlockWeight_cons, if_neg, zero_add]
      rintro (⟨h1, -⟩ | ⟨h1, -⟩) <;> rw [hbu] at h1 <;> exact Option.noConfusion h1
    | some bmu =>
      cases hbv : blockOf g partitions e.2.1 with
      | none =>
        simp only [hbu, hbv]
        obtain ⟨m1, m2, m3⟩ := ih es hself hpw
        refine ⟨m1, m2, fun i j hij => ?_⟩
        rw [m3 i j hij, interBlockWeight_cons, if_neg, zero_add]
        rintro (⟨-, h2⟩ | ⟨-, h2⟩) <;> rw [hbv] at h2 <;>
          exact Option.noConfusion h2
      | some bmv =>
        simp only [hbu, hbv]
        by_cases hb : bmu = bmv
        · rw [if_pos hb]
          obtain ⟨m1, m2, m3⟩ := ih es hself hpw
          refine ⟨m1, m2, fun i j hij => ?_⟩
          rw [m3 i j hij, interBlockWeight_cons, if_neg, zero_add]
          rintro (⟨h1, h2⟩ | ⟨h1, h2⟩) <;> rw [hbu] at h1 <;> rw [hbv] at h2 <;>
            rw [Option.some.injEq] at h1 h2 <;> omega
        · rw [if_neg hb]
          obtain ⟨k1, k2, k3⟩ := addWeight_facts es bmu bmv (edgeWeight e.2.2)
            hb hself hpw
          obtain ⟨m1, m2, m3⟩ := ih _ k1 k2
          refine ⟨m1, m2, fun i j hij => ?_⟩
          rw [m3 i j hij, k3 i j, interBlockWeight_cons]
          have hiff : (sameEdgeKey (bmu, bmv) (i, j) = true) ↔
              ((blockOf g partitions e.1 = some i ∧
                blockOf g partitions e.2.1 = some j) ∨
               (blockOf g partitions e.1 = some j ∧
                blockOf g partitions e.2.1 = some i)) := by
            rw [hbu, hbv]
            simp [sameEdgeKey]
          rw [if_congr hiff rfl rfl]
          ring

/-- **C9**: `blockmodel` returns one quotient node per supplied
partition; its quotient edges never form self-loops, carry pairwise
distinct unordered block keys, and the weight between two distinct blocks
is exactly the sum of the `weight` attributes (1 by default) of the
source edges joining those two blocks; on the concrete example the
quotient has exactly one inter-block edge of weight 3 and two nodes. -/
theorem claim_C9_blockmodel (g : Graph Nat) (partitions : List (List Nat))
    (attrs : List (String × List Val)) :
    ((blockmodel g partitions attrs).nodes.length = partitions.length) ∧
    (∀ e ∈ (blockmodel g partitions attrs).edges, e.1.1 ≠ e.1.2) ∧
    ((blockmodel g partitions attrs).edges.Pairwise
      (fun e1 e2 => ¬ sameEdgeKey e1.1 e2.1 = true)) ∧
    (∀ i j, i ≠ j →
      sumWeights (blockmodel g partitions attrs).edges i j =
        interBlockWeight g partitions g.edges i j) ∧
    ((blockmodel exQ [[1, 2], [3, 4]] []).edges = [((0, 1), 3)] ∧
     (blockmodel exQ [[1, 2], [3, 4]] []).nodes.length = 2) := by
  have hedges : (blockmodel g partitions attrs).edges =
      g.edges.foldl (fun es e =>
          match blockOf g partitions e.1, blockOf g partitions e.2.1 with
          | some bmu, some bmv =>
              if bmu = bmv then es
              else addWeight es bmu bmv (edgeWeight e.2.2)
          | _, _ => es) [] := rfl
  obtain ⟨m1, m2, m3⟩ := blockFold_facts g partitions g.edges []
    (by simp) (by simp)
  refine ⟨?_, ?_, ?_, ?_, by
    norm_num [blockmodel, blockOf, addWeight, edgeWeight, subgraphOn,
      sameEdgeKey, exQ, plookup, Graph.nodeIds, List.enum], by decide⟩
  · show (partitions.enum.map _).length = partitions.length
    rw [List.length_map, List.enum_length]
  · rw [hedges]; exact m1
  · rw [hedges]; exact m2
  · intro i j hij
    rw [hedges, m3 i j hij, show sumWeights [] i j = 0 from rfl, zero_add]

/-- Witness for C9 at the concrete quotient example: blocks 0 and 1 are
distinct and the merged quotient weight equals the inter-block sum. -/
theorem claim_C9_witness :
    (0 : Nat) ≠ 1 ∧
    sumWeights (blockmodel exQ [[1, 2], [3, 4]] []).edges 0 1 =
      interBlockWeight exQ [[1, 2], [3, 4]] exQ.edges 0 1 :=
  ⟨by decide,
    (claim_C9_blockmodel exQ [[1, 2], [3, 4]] []).2.2.2.1 0 1 (by decide)⟩

/-! ## Match ranking (C10) -/

/-- **C10**: `rate_match` counts the mapped pairs whose `atomname`
attributes agree, reading a missing attribute as `None`; a pair in which
both nodes lack the attribute therefore counts as matching and raises the
score by one; and `isomorphism` returns its matches sorted by this score,
best first. -/
theorem claim_C10_rate_match (residue bead reference res2 : Graph α)
    (m : List (α × α)) (p : α × α) :
    (rate_match residue bead m =
      (m.filter (fun q => residue.nodeAttr q.1 "atomname" =
        bead.nodeAttr q.2 "atomname")).length) ∧
    (residue.nodeAttr p.1 "atomname" = none →
      bead.nodeAttr p.2 "atomname" = none →
      rate_match residue bead (p :: m) = rate_match residue bead m + 1) ∧
    ((isomorphism reference res2).Pairwise (fun m1 m2 =>
      rate_match reference res2 m2 ≤ rate_match reference res2 m1)) := by
  refine ⟨?_, ?_, ?_⟩
  · induction m with
    | nil => rfl
    | cons q rest ih =>
      rw [rate_match, List.map_cons, List.sum_cons, List.filter_cons]
      rw [show ((rest.map (fun r => if residue.nodeAttr r.1 "atomname" =
          bead.nodeAttr r.2 "atomname" then 1 else 0)).sum : Nat) =
          rate_match residue bead rest from rfl, ih]
      by_cases h : residue.nodeAttr q.1 "atomname" =
          bead.nodeAttr q.2 "atomname"
      · simp [h]
        omega
      · simp [h]
  · intro h1 h2
    rw [rate_match, List.map_cons, List.sum_cons]
    rw [show ((m.map (fun r => if residue.nodeAttr r.1 "atomname" =
        bead.nodeAttr r.2 "atomname" then 1 else 0)).sum : Nat) =
        rate_match residue bead m from rfl]
    rw [h1, h2, if_pos rfl]
    omega
  · exact sortDesc_sorted _ _

/-- Witness for C10: a mapped pair in which both nodes lack `atomname`
counts as one matching pair. -/
theorem claim_C10_witness :
    Graph.nodeAttr exQ 1 "atomname" = none ∧
    rate_match exQ exQ [(1, 1)] = rate_match exQ exQ [] + 1 :=
  ⟨by decide, (claim_C10_rate_match exQ exQ exQ exQ [] (1, 1)).2.1
    (by decide) (by decide)⟩

/-! ## Concrete witnesses -/

/-- Witness for C1: in a returned Match of the categorical MCS on the
concrete graphs, the two distinct keys map to distinct values. -/
theorem claim_C1_witness : ((1 : Nat), (11 : Nat)).2 ≠ ((2 : Nat), (10 : Nat)).2 :=
  (claim_C1_matches_injective exG1 exG2 exG1 exG1 ["element"]).1
    [(1, 11), (2, 10)] (by decide) (1, 11) (by decide) (2, 10) (by decide)
    (by decide)

/-- Witness for C2 at a concrete product node. -/
theorem claim_C2_witness :
    (((1, 10) : Nat × Nat) ∈
      nodeIds (categorical_modular_product exG1 exG2 ["element"]) ↔
      1 ∈ nodeIds exG1 ∧ 10 ∈ nodeIds exG2 ∧
        ∀ attr ∈ ["element"], ∃ v,
          plookup attr (exG1.nodeAttrs 1) = some v ∧
          plookup attr (exG2.nodeAttrs 10) = some v) :=
  (claim_C2_modular_product exG1 exG2 ["element"]).1 1 10

/-- Witness for C3: a tied maximum clique of the concrete modular product
is retained as a Match. -/
theorem claim_C3_witness :
    dictOf [((1 : Nat), (11 : Nat)), (2, 10)] ∈
      categorical_maximum_common_subgraph exG1 exG2 ["element"] :=
  (claim_C3_categorical_mcs exG1 exG2 ["element"]).2.2.1 [(1, 11), (2, 10)]
    (by decide) (by decide)

/-- Witness for C4: a maximum pooled clique of the concrete two-phase
search is represented in the result. -/
theorem claim_C4_witness :
    ∃ m ∈ maximum_common_subgraph exG1 exG2 ["element"],
      List.Perm m (dictOf [((1 : Nat), (10 : Nat)), (2, 11)]) :=
  (claim_C4_mcs_pooling exG1 exG2 ["element"]).2.1 [(1, 10), (2, 11)]
    (by decide) (by decide)

/-- Witness for the amended C5 at a concrete product node. -/
theorem claim_C5_witness :
    (((1, 10) : Nat × Nat) ∈ nodeIds (mcsLeafProduct exG1 exG2 [] []) ↔
      ((1, 10) ∈ ([] : List (Nat × Nat)) ∨
        (1 ∈ nodeIds exG1 ∧ 10 ∈ nodeIds exG2 ∧
          (exG1.degree 1 ≤ 1 ∨ exG2.degree 10 ≤ 1) ∧
          attrsMatch (exG1.nodeAttrs 1) (exG2.nodeAttrs 10) [] = true ∧
          (exG1.neighbors 1 = [] ∨
            (∃ n ∈ exG1.neighbors 1, plookup n (dictOf ([] : List (Nat × Nat))) = none) ∨
            (∃ n ∈ exG1.neighbors 1, ∃ img,
              plookup n (dictOf ([] : List (Nat × Nat))) = some img ∧
                img ∈ exG2.neighbors 10)) ∧
          (1, 10) ∉ ([] : List (Nat × Nat))))) :=
  (claim_C5_amended_leaf_product exG1 exG2 [] []).1 (1, 10)

/-- Witness for C6: on the triangle's identity heavy embedding the
contribution is the first discovered completion. -/
theorem claim_C6_witness :
    isoContribution exTri exTri [(0, 0), (1, 1), (2, 2)] =
      (completionsFrom exTri exTri
        (extendLeaves exTri exTri (leafIdxs exTri)
          [(0, 0), (1, 1), (2, 2)]).1).take 1 :=
  (((claim_C6_first_completion exTri exTri).2.1 [(0, 0), (1, 1), (2, 2)]).1
    (by decide)).1

/-- Witness for C7: with an empty match state the leaf pass leaves the
state unchanged (silent skip). -/
theorem claim_C7_witness :
    extendLeafStep exG1 exG1 ([], []) 1 = ([], []) := by
  rcases claim_C7_leaf_step exG1 exG1 ([], []) 1 with
    ⟨resNbr, refNbr, refH, -, h2, -⟩ | h
  · exact absurd h2 (by simp [plookup])
  · exact h
